import Mathlib

/-!
Verification development for the arbrobot repository: a shallow embedding of
the detection pipeline (depth/VWAP primitive, cross-exchange engine,
triangular engine, registry path enumeration, fee configuration and the
alert deduplication pipeline), with theorems checking the specification
claims against the embedded code. Python floats are modelled as rationals,
datetimes as rational timestamps, and dictionaries as association lists.
-/

/-- Association-list model of a Python dict read: first binding wins. -/
def assocGet {κ α : Type} [DecidableEq κ] : List (κ × α) → κ → Option α
  | [], _ => none
  | (k, v) :: rest, key => if k = key then some v else assocGet rest key

/-- Association-list model of a Python dict assignment d[key] = v:
overwrite the existing binding in place, else append a new binding. -/
def assocSet {κ α : Type} [DecidableEq κ] : List (κ × α) → κ → α → List (κ × α)
  | [], key, v => [(key, v)]
  | (k, w) :: rest, key, v =>
      if k = key then (key, v) :: rest else (k, w) :: assocSet rest key v

/-! ## depth.py -/

/-- models.py DepthLevel: one order-book level. -/
structure DepthLevel where
  price : ℚ
  amount : ℚ
deriving DecidableEq

/-- models.py VWAPResult. -/
structure VWAPResult where
  vwap_price : ℚ
  total_volume : ℚ
  levels_used : ℕ
  fully_filled : Bool
deriving DecidableEq

/-- np.cumsum on a rational list. -/
def cumsum : List ℚ → List ℚ
  | [] => []
  | x :: xs => x :: (cumsum xs).map (fun y => x + y)

/-- Index of the first element satisfying the predicate:
models np.where(cond)[0] followed by taking entry 0 (none when the
index array is empty). -/
def firstIdx (p : ℚ → Bool) : List ℚ → Option ℕ
  | [] => none
  | x :: xs => if p x then some 0 else (firstIdx p xs).map (· + 1)

/-- depth.py calculate_vwap, translated statement by statement.  The side
argument is kept in the signature exactly as in the source, where it is
never read by the body. -/
def calculate_vwap (levels : List DepthLevel) (target_notional : ℚ)
    (side : String) : VWAPResult :=
  if levels = [] ∨ target_notional ≤ 0 then
    { vwap_price := 0, total_volume := 0, levels_used := 0, fully_filled := false }
  else
    let prices := levels.map (·.price)
    let amounts := levels.map (·.amount)
    let notionals := List.zipWith (· * ·) prices amounts
    let cumulative_notionals := cumsum notionals
    let cumulative_amounts := cumsum amounts
    match firstIdx (fun c => target_notional ≤ c) cumulative_notionals with
    | none =>
      let total_notional := (cumulative_notionals.getLast?).getD 0
      let total_amount := (cumulative_amounts.getLast?).getD 0
      let vwap := if 0 < total_amount then total_notional / total_amount else 0
      { vwap_price := vwap, total_volume := total_amount,
        levels_used := levels.length, fully_filled := false }
    | some fill_index =>
      if fill_index = 0 then
        let price := prices.getD 0 0
        { vwap_price := price, total_volume := target_notional / price,
          levels_used := 1, fully_filled := true }
      else
        let full_levels_notional := cumulative_notionals.getD (fill_index - 1) 0
        let remaining_notional := target_notional - full_levels_notional
        let last_level_price := prices.getD fill_index 0
        let part_amt := remaining_notional / last_level_price
        let total_amount_filled := cumulative_amounts.getD (fill_index - 1) 0 + part_amt
        let full_levels_weighted :=
          (List.zipWith (· * ·) (prices.take fill_index) (amounts.take fill_index)).sum
        let part_weighted := last_level_price * part_amt
        let total_weighted := full_levels_weighted + part_weighted
        let vwap := if 0 < total_amount_filled then total_weighted / total_amount_filled else 0
        { vwap_price := vwap, total_volume := total_amount_filled,
          levels_used := fill_index + 1, fully_filled := true }

/-- depth.py calculate_buy_vwap. -/
def calculate_buy_vwap (asks : List DepthLevel) (target_notional : ℚ) : VWAPResult :=
  calculate_vwap asks target_notional "buy"

/-- depth.py calculate_sell_vwap. -/
def calculate_sell_vwap (bids : List DepthLevel) (target_notional : ℚ) : VWAPResult :=
  calculate_vwap bids target_notional "sell"

/-! ## models.py -/

/-- models.py OrderBook; the datetime timestamp is a rational number of
seconds. -/
structure OrderBook where
  symbol : String
  exchange : String
  bids : List DepthLevel
  asks : List DepthLevel
  timestamp : ℚ
deriving DecidableEq

/-- models.py MarketMeta (the fields the registry path enumeration reads). -/
structure MarketMeta where
  symbol : String
  base : String
  quote : String
  active : Bool
deriving DecidableEq

/-- models.py FeesPublic. -/
structure FeesPublic where
  maker : ℚ
  taker : ℚ
  source : String
  exchange : String
  symbol_specific : List (String × (ℚ × ℚ))
deriving DecidableEq

/-- models.py FeesPublic.get_fees: a non-empty symbol that appears in the
symbol-specific table wins, otherwise the exchange-level pair. -/
def FeesPublic.get_fees (f : FeesPublic) (symbol : Option String) : ℚ × ℚ :=
  match symbol with
  | some s =>
    if s.isEmpty then (f.maker, f.taker)
    else
      match assocGet f.symbol_specific s with
      | some mt => mt
      | none => (f.maker, f.taker)
  | none => (f.maker, f.taker)

/-- Python int() applied to a rational: truncation toward zero. -/
def intTrunc (q : ℚ) : ℤ :=
  if 0 ≤ q then ⌊q⌋ else -⌊-q⌋

/-- models.py Opportunity. -/
structure Opportunity where
  symbol : String
  buy_exchange : String
  sell_exchange : String
  buy_price_before_fees : ℚ
  sell_price_before_fees : ℚ
  buy_price_after_fees : ℚ
  sell_price_after_fees : ℚ
  spread_bps : ℚ
  notional : ℚ
  buy_depth_levels : ℕ
  sell_depth_levels : ℕ
  buy_fees : ℚ × ℚ
  sell_fees : ℚ × ℚ
  timestamp : ℚ
  mode : String
deriving DecidableEq

/-- models.py Opportunity.dedupe_key, the f-string
CROSS_\x7bbuy_exchange\x7d_\x7bsell_exchange\x7d_\x7bsymbol\x7d_\x7bint(notional)\x7d. -/
def Opportunity.dedupe_key (o : Opportunity) : String :=
  "CROSS_" ++ o.buy_exchange ++ "_" ++ o.sell_exchange ++ "_" ++ o.symbol
    ++ "_" ++ toString (intTrunc o.notional)

/-- models.py TriOpportunity. -/
structure TriOpportunity where
  exchange : String
  base_asset : String
  path : String × String × String
  start_amount : ℚ
  end_amount : ℚ
  gain_bps : ℚ
  notional : ℚ
  leg1_symbol : String
  leg1_price : ℚ
  leg1_side : String
  leg2_symbol : String
  leg2_price : ℚ
  leg2_side : String
  leg3_symbol : String
  leg3_price : ℚ
  leg3_side : String
  fees : ℚ × ℚ
  timestamp : ℚ
deriving DecidableEq

/-- models.py TriOpportunity.dedupe_key: the path joined with underscores,
then the f-string TRI_\x7bexchange\x7d_\x7bpath_str\x7d_\x7bint(notional)\x7d. -/
def TriOpportunity.dedupe_key (o : TriOpportunity) : String :=
  let path_str := o.path.1 ++ "_" ++ o.path.2.1 ++ "_" ++ o.path.2.2
  "TRI_" ++ o.exchange ++ "_" ++ path_str ++ "_" ++ toString (intTrunc o.notional)

/-! ## engine.py -/

/-- engine.py ArbitrageEngine state: the (exchange, symbol) → OrderBook
dict and the last scan time. -/
structure ArbitrageEngine where
  order_books : List ((String × String) × OrderBook)
  last_scan_time : ℚ
deriving DecidableEq

/-- engine.py ArbitrageEngine.update_order_book: a single dict assignment
at key (exchange, symbol). -/
def ArbitrageEngine.update_order_book (e : ArbitrageEngine) (book : OrderBook) :
    ArbitrageEngine :=
  { e with order_books := assocSet e.order_books (book.exchange, book.symbol) book }

/-- engine.py ArbitrageEngine._is_websocket_data for the two books used by
_check_opportunity: every book younger than 5 seconds. -/
def isWebsocketData (now : ℚ) (buy_book sell_book : OrderBook) : Bool :=
  !(decide (now - buy_book.timestamp > 5) || decide (now - sell_book.timestamp > 5))

/-- engine.py ArbitrageEngine._check_opportunity.  The awaited fee-manager
results are passed in as buy_fees and sell_fees, the config thresholds as
minNotional and minSpreadBps, and datetime.utcnow() as now.  The division
by a zero mid price raises ZeroDivisionError in the source, which the
enclosing except handler turns into None; this is modelled by the explicit
mid_price = 0 test. -/
def checkOpportunity (minNotional minSpreadBps now : ℚ) (symbol : String)
    (buy_exchange sell_exchange : String)
    (symbol_books : List (String × OrderBook))
    (buy_fees sell_fees : FeesPublic) : Option Opportunity :=
  match assocGet symbol_books buy_exchange, assocGet symbol_books sell_exchange with
  | some buy_book, some sell_book =>
    if buy_book.asks = [] ∨ sell_book.bids = [] then none
    else
      let target_notional := minNotional
      let buy_vwap := calculate_buy_vwap buy_book.asks target_notional
      if buy_vwap.fully_filled = false then none
      else
        let sell_vwap := calculate_sell_vwap sell_book.bids target_notional
        if sell_vwap.fully_filled = false then none
        else
          let buy_price_before_fees := buy_vwap.vwap_price
          let sell_price_before_fees := sell_vwap.vwap_price
          let buy_taker_fee := (buy_fees.get_fees (some symbol)).2
          let buy_price_after_fees := buy_price_before_fees * (1 + buy_taker_fee)
          let sell_taker_fee := (sell_fees.get_fees (some symbol)).2
          let sell_price_after_fees := sell_price_before_fees * (1 - sell_taker_fee)
          if sell_price_after_fees ≤ buy_price_after_fees then none
          else
            let mid_price := (buy_price_after_fees + sell_price_after_fees) / 2
            if mid_price = 0 then none
            else
              let spread_bps := (sell_price_after_fees - buy_price_after_fees) / mid_price * 10000
              if spread_bps < minSpreadBps then none
              else
                some { symbol := symbol
                       buy_exchange := buy_exchange
                       sell_exchange := sell_exchange
                       buy_price_before_fees := buy_price_before_fees
                       sell_price_before_fees := sell_price_before_fees
                       buy_price_after_fees := buy_price_after_fees
                       sell_price_after_fees := sell_price_after_fees
                       spread_bps := spread_bps
                       notional := target_notional
                       buy_depth_levels := buy_vwap.levels_used
                       sell_depth_levels := sell_vwap.levels_used
                       buy_fees := buy_fees.get_fees (some symbol)
                       sell_fees := sell_fees.get_fees (some symbol)
                       timestamp := now
                       mode := if isWebsocketData now buy_book sell_book then "ws" else "rest" }
  | _, _ => none

/-! ## tri_engine.py -/

/-- tri_engine.py TriangularArbitrageEngine state. -/
structure TriangularArbitrageEngine where
  order_books : List ((String × String) × OrderBook)
  triangular_paths : List (String × List (String × String × String))
  last_scan_time : ℚ
  path_cache_time : List (String × ℚ)
deriving DecidableEq

/-- tri_engine.py TriangularArbitrageEngine.update_order_book. -/
def TriangularArbitrageEngine.update_order_book (e : TriangularArbitrageEngine)
    (book : OrderBook) : TriangularArbitrageEngine :=
  { e with order_books := assocSet e.order_books (book.exchange, book.symbol) book }

/-- tri_engine.py TriangularArbitrageEngine._get_order_book: returns the
stored book only when it is at most 60 seconds old and both sides are
non-empty. -/
def getOrderBook (books : List ((String × String) × OrderBook)) (now : ℚ)
    (exchange symbol : String) : Option OrderBook :=
  match assocGet books (exchange, symbol) with
  | none => none
  | some book =>
    if now - book.timestamp > 60 then none
    else if book.bids = [] ∨ book.asks = [] then none
    else some book

/-- Result of one simulated triangular leg:
(resulting_amount, symbol, price, side). -/
abbrev LegResult := ℚ × String × ℚ × String

/-- The second half of tri_engine.py _execute_leg: the attempt on the
reverse market to_asset/from_asset, reached when the direct market has no
usable book or its VWAP attempt is not fully filled. -/
def executeLegReverse (books : List ((String × String) × OrderBook)) (now : ℚ)
    (exchange from_asset to_asset : String) (amount : ℚ)
    (preferred_side : String) (fees : FeesPublic) : Option LegResult :=
  let reverse_symbol := to_asset ++ "/" ++ from_asset
  match getOrderBook books now exchange reverse_symbol with
  | none => none
  | some book =>
    if preferred_side = "buy" then
      if book.bids = [] then none
      else
        let best_bid := (book.bids.getD 0 { price := 0, amount := 0 }).price
        let target_notional := amount / best_bid
        let vwap := calculate_sell_vwap book.bids target_notional
        if vwap.fully_filled then
          let taker_fee := (fees.get_fees (some reverse_symbol)).2
          let gross_to_asset := vwap.total_volume
          some (gross_to_asset * (1 - taker_fee), reverse_symbol, vwap.vwap_price, "sell")
        else none
    else
      let target_notional := amount
      let vwap := calculate_buy_vwap book.asks target_notional
      if vwap.fully_filled then
        let taker_fee := (fees.get_fees (some reverse_symbol)).2
        let gross_to_asset := target_notional / vwap.vwap_price
        some (gross_to_asset * (1 - taker_fee), reverse_symbol, vwap.vwap_price, "buy")
      else none

/-- tri_engine.py _execute_leg: try the direct market from_asset/to_asset
first, executing on the preferred side; when the direct book is absent or
the direct VWAP attempt is not fully filled, fall through to the reverse
market with the opposite side. -/
def executeLeg (books : List ((String × String) × OrderBook)) (now : ℚ)
    (exchange from_asset to_asset : String) (amount : ℚ)
    (preferred_side : String) (fees : FeesPublic) : Option LegResult :=
  let symbol := from_asset ++ "/" ++ to_asset
  match getOrderBook books now exchange symbol with
  | some book =>
    if preferred_side = "buy" then
      let target_notional := amount
      let vwap := calculate_buy_vwap book.asks target_notional
      if vwap.fully_filled then
        let taker_fee := (fees.get_fees (some symbol)).2
        let gross_to_asset := target_notional / vwap.vwap_price
        some (gross_to_asset * (1 - taker_fee), symbol, vwap.vwap_price, "buy")
      else
        executeLegReverse books now exchange from_asset to_asset amount preferred_side fees
    else
      if book.bids = [] then none
      else
        let best_bid := (book.bids.getD 0 { price := 0, amount := 0 }).price
        let target_notional := amount * best_bid
        let vwap := calculate_sell_vwap book.bids target_notional
        if vwap.fully_filled then
          let taker_fee := (fees.get_fees (some symbol)).2
          let gross_to_asset := vwap.total_volume * vwap.vwap_price
          some (gross_to_asset * (1 - taker_fee), symbol, vwap.vwap_price, "sell")
        else
          executeLegReverse books now exchange from_asset to_asset amount preferred_side fees
  | none =>
    executeLegReverse books now exchange from_asset to_asset amount preferred_side fees

/-! ## registry.py -/

/-- The registry pattern: if the key is absent bind it to the empty list,
then append the value to its list. -/
def assocAppend : List (String × List String) → String → String → List (String × List String)
  | [], k, v => [(k, [v])]
  | (k₀, vs) :: rest, k, v =>
      if k₀ = k then (k₀, vs ++ [v]) :: rest else (k₀, vs) :: assocAppend rest k v

/-- The body of the first loop of registry.py get_triangular_symbols:
process one (symbol, market) entry of the markets dict. -/
def triMapStep (exclude_quotes : List String)
    (maps : List (String × List String) × List (String × List String))
    (sm : String × MarketMeta) :
    List (String × List String) × List (String × List String) :=
  let market := sm.2
  if market.active = false then maps
  else if market.quote ∈ exclude_quotes then maps
  else (assocAppend maps.1 market.base market.quote,
        assocAppend maps.2 market.quote market.base)

/-- registry.py get_triangular_symbols, first loop: build symbols_by_base
and symbols_by_quote from the active markets whose quote is not excluded. -/
def buildTriMaps (markets : List (String × MarketMeta)) (exclude_quotes : List String) :
    List (String × List String) × List (String × List String) :=
  markets.foldl (triMapStep exclude_quotes) ([], [])

/-- registry.py get_triangular_symbols, nested path-enumeration loops.  The
markets dict of the exchange and the configured TRI_EXCLUDE_QUOTES are
passed in explicitly. -/
def getTriangularSymbols (markets : List (String × MarketMeta))
    (exclude_quotes : List String) (base_assets : List String) :
    List (String × String × String) :=
  let maps := buildTriMaps markets exclude_quotes
  let symbols_by_base := maps.1
  let symbols_by_quote := maps.2
  base_assets.flatMap (fun base =>
    match assocGet symbols_by_base base with
    | none => []
    | some reachable_from_base =>
      reachable_from_base.flatMap (fun asset2 =>
        if asset2 = base then []
        else if asset2 ∈ exclude_quotes then []
        else
          match assocGet symbols_by_base asset2 with
          | none => []
          | some reachable_from_asset2 =>
            reachable_from_asset2.flatMap (fun asset3 =>
              if asset3 = base ∨ asset3 = asset2 then []
              else if asset3 ∈ exclude_quotes then []
              else
                match assocGet symbols_by_quote asset3 with
                | none => []
                | some bases =>
                  if base ∈ bases then [(base, asset2, asset3)] else [])))

/-! ## config.py and fees.py -/

/-- Python str.split(sep) for a single separator character, on the
character list of a string. -/
def splitOnChar (c : Char) : List Char → List (List Char)
  | [] => [[]]
  | x :: xs =>
    let r := splitOnChar c xs
    if x = c then [] :: r
    else
      match r with
      | [] => [[x]]
      | y :: ys => (x :: y) :: ys

/-- Whether the pattern is a leading piece of the second list. -/
def isPieceAt : List Char → List Char → Bool
  | [], _ => true
  | _ :: _, [] => false
  | a :: as, b :: bs => a == b && isPieceAt as bs

/-- Python substring containment (pat in s) on character lists. -/
def hasSub (pat : List Char) : List Char → Bool
  | [] => pat.isEmpty
  | x :: rest => isPieceAt pat (x :: rest) || hasSub pat rest

/-- The dict-initialisation step in Config.get_fee_overrides: if the
exchange key is absent, bind it to an empty inner dict. -/
def ensureKey (overrides : List (String × List (String × ℚ))) (k : String) :
    List (String × List (String × ℚ)) :=
  match assocGet overrides k with
  | some _ => overrides
  | none => overrides ++ [(k, [])]

/-- Python str.lower() on the ASCII environment keys, character by
character. -/
def toLowerStr (s : String) : String := String.mk (s.data.map Char.toLower)

/-- The body of the loop of Config.get_fee_overrides: process one
environment entry. -/
def feeOverrideStep (overrides : List (String × List (String × ℚ)))
    (kv : String × Option ℚ) : List (String × List (String × ℚ)) :=
  let key := kv.1
  if hasSub "_TAKER_FEE".data key.data || hasSub "_MAKER_FEE".data key.data then
    let ps := (splitOnChar '_' key.data).map (fun l => String.mk l)
    if 3 ≤ ps.length then
      let exchange := toLowerStr (ps.getD 0 "")
      let fee_type := toLowerStr (ps.getD 1 "")
      let overrides2 := ensureKey overrides exchange
      match kv.2 with
      | some v =>
        let inner := (assocGet overrides2 exchange).getD []
        assocSet overrides2 exchange (assocSet inner fee_type v)
      | none => overrides2
    else overrides
  else overrides

/-- config.py Config.get_fee_overrides.  The environment is a list of
(key, parsed value) pairs; a value of none models a value on which
float() raises ValueError, in which case the source hits continue after
having already inserted the (possibly empty) inner dict for the
exchange. -/
def getFeeOverrides (env : List (String × Option ℚ)) :
    List (String × List (String × ℚ)) :=
  env.foldl feeOverrideStep []

/-- The exchange name an environment key targets in get_fee_overrides, or
none when the key fails the substring or arity checks. -/
def feeKeyExchange (key : String) : Option String :=
  if hasSub "_TAKER_FEE".data key.data || hasSub "_MAKER_FEE".data key.data then
    let ps := (splitOnChar '_' key.data).map (fun l => String.mk l)
    if 3 ≤ ps.length then some (toLowerStr (ps.getD 0 "")) else none
  else none

/-- fees.py FeeManager.get_fees, override-application block: mutate the
maker and taker fields from the env overrides and set source to env. -/
def applyOverrides (env_overrides : List (String × List (String × ℚ)))
    (exchange_name : String) (fees : FeesPublic) : FeesPublic :=
  match assocGet env_overrides exchange_name with
  | none => fees
  | some ov =>
    let f1 :=
      match assocGet ov "maker" with
      | some m => { fees with maker := m, source := "env" }
      | none => fees
    match assocGet ov "taker" with
    | some t => { f1 with taker := t, source := "env" }
    | none => f1

/-- fees.py FeeManager.get_fees.  The awaited _fetch_public_fees result is
passed in as fetched_public_fees (its network access is outside the
embedding); the fee cache is explicit state. -/
def getFees (fee_cache : List (String × FeesPublic))
    (env_overrides : List (String × List (String × ℚ)))
    (fetched_public_fees : FeesPublic) (exchange_name : String)
    (symbol : Option String) : FeesPublic × List (String × FeesPublic) :=
  let symbol_part :=
    match symbol with
    | some s => if s.isEmpty then "default" else s
    | none => "default"
  let cache_key := exchange_name ++ "_" ++ symbol_part
  match assocGet fee_cache cache_key with
  | some fees => (fees, fee_cache)
  | none =>
    let fees := applyOverrides env_overrides exchange_name fetched_public_fees
    (fees, assocSet fee_cache cache_key fees)

/-! ## alert.py -/

/-- alert.py AlertManager state relevant to deduplication: the enabled
flag and the dedup table dedupe_key → timestamp. -/
structure AlertState where
  enabled : Bool
  sent_alerts : List (String × ℚ)
deriving DecidableEq

/-- alert.py alert_ttl = timedelta(seconds=30). -/
def alertTTL : ℚ := 30

/-- alert.py AlertManager._clean_old_alerts: drop entries strictly older
than the TTL. -/
def cleanOldAlerts (sent_alerts : List (String × ℚ)) (now : ℚ) : List (String × ℚ) :=
  sent_alerts.filter (fun kv => !(decide (now - kv.2 > alertTTL)))

/-- alert.py AlertManager._is_duplicate, which also mutates the table by
cleaning; returns the verdict together with the cleaned table. -/
def isDuplicate (sent_alerts : List (String × ℚ)) (now : ℚ) (dedupe_key : String) :
    Bool × List (String × ℚ) :=
  let cleaned := cleanOldAlerts sent_alerts now
  match assocGet cleaned dedupe_key with
  | some ts => (decide (now - ts < alertTTL), cleaned)
  | none => (false, cleaned)

/-- alert.py send_cross_exchange_alert / send_triangular_alert, reduced to
the dedup-relevant effect: returns whether the formatted message was
queued, together with the new state.  now is datetime.utcnow() at the
submission. -/
def sendAlert (st : AlertState) (dedupe_key : String) (now : ℚ) : Bool × AlertState :=
  if st.enabled = false then (false, st)
  else
    let dup := isDuplicate st.sent_alerts now dedupe_key
    if dup.1 then (false, { st with sent_alerts := dup.2 })
    else (true, { st with sent_alerts := assocSet dup.2 dedupe_key now })

/-- A single-producer sequence of alert submissions (dedupe_key, time),
processed in order; returns the queue verdicts and the final state. -/
def runAlerts (st : AlertState) : List (String × ℚ) → List Bool × AlertState
  | [] => ([], st)
  | (k, t) :: rest =>
    let r := sendAlert st k t
    let rr := runAlerts r.2 rest
    (r.1 :: rr.1, rr.2)

/-! ## Derived notions used to state the amended hop-resolution claim -/

/-- The side opposite to a preferred side. -/
def flipSide (s : String) : String := if s = "buy" then "sell" else "buy"

/-- Whether the simulated attempt on the direct market from_asset/to_asset
with the given preferred side fully fills (the condition under which
_execute_leg commits to the direct market instead of falling through to
the inverse market). -/
def directFill (book : OrderBook) (amount : ℚ) (preferred_side : String) : Bool :=
  if preferred_side = "buy" then
    (calculate_buy_vwap book.asks amount).fully_filled
  else
    !book.bids.isEmpty &&
      (calculate_sell_vwap book.bids
        (amount * (book.bids.getD 0 { price := 0, amount := 0 }).price)).fully_filled

/-! ## Concrete inputs used by witnesses and counterexamples -/

/-- A zero-fee fee structure. -/
def zeroFees : FeesPublic :=
  { maker := 0, taker := 0, source := "default", exchange := "binance", symbol_specific := [] }

/-- Buy-side book used by the concrete check_opportunity witness. -/
def c1BuyBook : OrderBook :=
  { symbol := "BTC/USDT", exchange := "binance",
    bids := [{ price := 98, amount := 1 }],
    asks := [{ price := 99, amount := 10 }], timestamp := 0 }

/-- Sell-side book used by the concrete check_opportunity witness. -/
def c1SellBook : OrderBook :=
  { symbol := "BTC/USDT", exchange := "okx",
    bids := [{ price := 101, amount := 10 }],
    asks := [{ price := 102, amount := 1 }], timestamp := 0 }

/-- Symbol books used by the concrete check_opportunity witness. -/
def c1Books : List (String × OrderBook) :=
  [("binance", c1BuyBook), ("okx", c1SellBook)]

/-- The opportunity emitted on the c1Books input. -/
def c1Opp : Opportunity :=
  { symbol := "BTC/USDT", buy_exchange := "binance", sell_exchange := "okx",
    buy_price_before_fees := 99, sell_price_before_fees := 101,
    buy_price_after_fees := 99, sell_price_after_fees := 101,
    spread_bps := 200, notional := 100, buy_depth_levels := 1, sell_depth_levels := 1,
    buy_fees := (0, 0), sell_fees := (0, 0), timestamp := 0, mode := "ws" }

/-- A fresh order book for the direct market AAA/BBB, used by the
hop-resolution counterexample. -/
def c3Book : OrderBook :=
  { symbol := "AAA/BBB", exchange := "ex",
    bids := [{ price := 1, amount := 100 }],
    asks := [{ price := 2, amount := 100 }], timestamp := 0 }

/-- Engine book store holding only the direct market AAA/BBB. -/
def c3Books : List ((String × String) × OrderBook) := [(("ex", "AAA/BBB"), c3Book)]

/-- Two ascending levels used by the full-fill VWAP witness. -/
def c2Levels : List DepthLevel :=
  [{ price := 100, amount := 1 }, { price := 101, amount := 2 }]

/-- Markets used by the triangular path-enumeration counterexample: the
venue lists USDT/BTC, BTC/ETH and USDT/ETH, all active. -/
def c7Markets : List (String × MarketMeta) :=
  [("USDT/BTC", { symbol := "USDT/BTC", base := "USDT", quote := "BTC", active := true }),
   ("BTC/ETH", { symbol := "BTC/ETH", base := "BTC", quote := "ETH", active := true }),
   ("USDT/ETH", { symbol := "USDT/ETH", base := "USDT", quote := "ETH", active := true })]

/-! ## Helper lemmas about the dict model -/

theorem assocGet_set_self {κ α : Type} [DecidableEq κ] (l : List (κ × α)) (k : κ) (v : α) :
    assocGet (assocSet l k v) k = some v := by
  induction l with
  | nil => simp [assocGet, assocSet]
  | cons hd tl ih =>
    obtain ⟨a, b⟩ := hd
    by_cases h : a = k
    · simp [assocGet, assocSet, h]
    · simpa [assocGet, assocSet, h] using ih

theorem assocGet_set_ne {κ α : Type} [DecidableEq κ] (l : List (κ × α)) (k k' : κ) (v : α)
    (h : k' ≠ k) : assocGet (assocSet l k v) k' = assocGet l k' := by
  have h' : ¬ k = k' := fun e => h e.symm
  induction l with
  | nil => simp [assocGet, assocSet, h']
  | cons hd tl ih =>
    obtain ⟨a, b⟩ := hd
    by_cases hk : a = k
    · have hne : ¬ a = k' := by rw [hk]; exact h'
      simp [assocGet, assocSet, hk, h', hne]
    · by_cases hk' : a = k' <;> simp [assocGet, assocSet, hk, hk', h, ih]

/-! ## Claim theorems -/

/-- Claim C9: calculate_vwap returns the same VWAPResult regardless of its
side argument, so calculate_buy_vwap and calculate_sell_vwap compute the
identical function of (levels, notional). -/
theorem vwap_side_irrelevant :
    (∀ (levels : List DepthLevel) (target_notional : ℚ) (s₁ s₂ : String),
        calculate_vwap levels target_notional s₁ = calculate_vwap levels target_notional s₂)
    ∧ ∀ (levels : List DepthLevel) (target_notional : ℚ),
        calculate_buy_vwap levels target_notional = calculate_sell_vwap levels target_notional :=
  ⟨fun _ _ _ _ => rfl, fun _ _ => rfl⟩

/-- Claim C10: update_order_book on the cross-exchange engine and on the
triangular engine rewrites exactly the entry at (exchange, symbol) of the
incoming book; every other order-book entry and every other engine field is
unchanged. -/
theorem update_order_book_frame (e : ArbitrageEngine) (te : TriangularArbitrageEngine)
    (book : OrderBook) (key : String × String)
    (h : key ≠ (book.exchange, book.symbol)) :
    assocGet (e.update_order_book book).order_books key = assocGet e.order_books key
    ∧ assocGet (e.update_order_book book).order_books (book.exchange, book.symbol) = some book
    ∧ (e.update_order_book book).last_scan_time = e.last_scan_time
    ∧ assocGet (te.update_order_book book).order_books key = assocGet te.order_books key
    ∧ assocGet (te.update_order_book book).order_books (book.exchange, book.symbol) = some book
    ∧ (te.update_order_book book).triangular_paths = te.triangular_paths
    ∧ (te.update_order_book book).last_scan_time = te.last_scan_time
    ∧ (te.update_order_book book).path_cache_time = te.path_cache_time := by
  refine ⟨?_, ?_, rfl, ?_, ?_, rfl, rfl, rfl⟩
  · exact assocGet_set_ne _ _ _ _ h
  · exact assocGet_set_self _ _ _
  · exact assocGet_set_ne _ _ _ _ h
  · exact assocGet_set_self _ _ _

theorem update_order_book_frame_witness :
    ((("okx", "ETH/USDT") : String × String) ≠ ("binance", "BTC/USDT"))
    ∧ (assocGet
        (ArbitrageEngine.update_order_book
          { order_books := [(("okx", "ETH/USDT"),
              { symbol := "ETH/USDT", exchange := "okx", bids := [], asks := [], timestamp := 1 })],
            last_scan_time := 7 }
          { symbol := "BTC/USDT", exchange := "binance",
            bids := [{ price := 100, amount := 1 }], asks := [{ price := 101, amount := 1 }],
            timestamp := 2 }).order_books
        ("okx", "ETH/USDT")
      = assocGet
          ([(("okx", "ETH/USDT"),
              { symbol := "ETH/USDT", exchange := "okx", bids := [], asks := [], timestamp := 1 })] :
            List ((String × String) × OrderBook))
          ("okx", "ETH/USDT")) := by
  have h : ((("okx", "ETH/USDT") : String × String) ≠ ("binance", "BTC/USDT")) := by decide
  exact ⟨h,
    (update_order_book_frame
      { order_books := [(("okx", "ETH/USDT"),
          { symbol := "ETH/USDT", exchange := "okx", bids := [], asks := [], timestamp := 1 })],
        last_scan_time := 7 }
      { order_books := [], triangular_paths := [], last_scan_time := 0, path_cache_time := [] }
      { symbol := "BTC/USDT", exchange := "binance",
        bids := [{ price := 100, amount := 1 }], asks := [{ price := 101, amount := 1 }],
        timestamp := 2 }
      ("okx", "ETH/USDT") h).1⟩

/-- Claim C6 counterexample: a concrete cross opportunity with
buy_venue binance, sell_venue okx, symbol BTC/USDT and notional 100, and a
concrete triangular opportunity with venue binance, path
(USDT, BTC, ETH) and notional 100, whose deduplication keys are NOT the
pipe-joined strings the claim prescribes (the code joins with
underscores). -/
theorem dedupe_key_counterexample :
    (Opportunity.dedupe_key
      { symbol := "BTC/USDT", buy_exchange := "binance", sell_exchange := "okx",
        buy_price_before_fees := 100, sell_price_before_fees := 101,
        buy_price_after_fees := 100, sell_price_after_fees := 101,
        spread_bps := 99, notional := 100, buy_depth_levels := 1, sell_depth_levels := 1,
        buy_fees := (0, 0), sell_fees := (0, 0), timestamp := 0, mode := "ws" }
      ≠ "CROSS|binance|okx|BTC/USDT|100")
    ∧ (TriOpportunity.dedupe_key
      { exchange := "binance", base_asset := "USDT", path := ("USDT", "BTC", "ETH"),
        start_amount := 100, end_amount := 101, gain_bps := 100, notional := 100,
        leg1_symbol := "BTC/USDT", leg1_price := 1, leg1_side := "buy",
        leg2_symbol := "ETH/BTC", leg2_price := 1, leg2_side := "buy",
        leg3_symbol := "ETH/USDT", leg3_price := 1, leg3_side := "sell",
        fees := (0, 0), timestamp := 0 }
      ≠ "TRI|binance|USDT|BTC|ETH|100") := by
  constructor <;> decide

/-- Claim C6 (amended): the deduplication key fields are joined by an
underscore, not a pipe: the cross key is
CROSS_buy_venue_sell_venue_symbol_⌊notional⌋ and the triangular key is
TRI_venue_base_a2_a3_⌊notional⌋, with the notional truncated by
Python int(). -/
theorem dedupe_key_format (o : Opportunity) (t : TriOpportunity) :
    o.dedupe_key = String.intercalate "_"
      ["CROSS", o.buy_exchange, o.sell_exchange, o.symbol, toString (intTrunc o.notional)]
    ∧ t.dedupe_key = String.intercalate "_"
      ["TRI", t.exchange, t.path.1, t.path.2.1, t.path.2.2, toString (intTrunc t.notional)] := by
  constructor <;>
    simp [Opportunity.dedupe_key, TriOpportunity.dedupe_key,
      String.intercalate, String.intercalate.go, String.append_assoc]

/-- Claim C4: when the first level alone covers the target notional
(price * amount ≥ N with N > 0), calculate_vwap answers
(price₁, N / price₁, 1, fully_filled = true). -/
theorem vwap_single_level (l : DepthLevel) (rest : List DepthLevel) (N : ℚ)
    (hN : 0 < N) (hfill : N ≤ l.price * l.amount) (side : String) :
    calculate_vwap (l :: rest) N side =
      { vwap_price := l.price, total_volume := N / l.price,
        levels_used := 1, fully_filled := true } := by
  have hne : ¬((l :: rest : List DepthLevel) = [] ∨ N ≤ 0) := by
    push_neg
    exact ⟨List.cons_ne_nil l rest, hN⟩
  simp only [calculate_vwap, if_neg hne, List.map_cons, List.zipWith_cons_cons, cumsum,
    firstIdx, hfill, decide_eq_true_eq, if_pos, List.getD_cons_zero]

/-- Claim C4 witness: for levels [(100, 1), (101, 2), (102, 3)] and
N = 50 the result is (100, 0.5, 1, true). -/
theorem vwap_single_level_witness :
    (0 : ℚ) < 50 ∧ (50 : ℚ) ≤ 100 * 1
    ∧ calculate_vwap
        [{ price := 100, amount := 1 }, { price := 101, amount := 2 },
         { price := 102, amount := 3 }] 50 "buy" =
      { vwap_price := 100, total_volume := 1/2, levels_used := 1, fully_filled := true } := by
  refine ⟨by norm_num, by norm_num, ?_⟩
  have h := vwap_single_level { price := 100, amount := 1 }
    [{ price := 101, amount := 2 }, { price := 102, amount := 3 }] 50
    (by norm_num) (by norm_num) "buy"
  rw [h]
  norm_num

/-- Claim C1: whenever _check_opportunity emits a record, the record has
sell_price_after_fees > buy_price_after_fees, spread_bps at least the
configured minimum, and spread_bps equal to the difference over the
midpoint times 10000. -/
theorem check_opportunity_invariant (minNotional minSpreadBps now : ℚ)
    (symbol buy_exchange sell_exchange : String)
    (symbol_books : List (String × OrderBook)) (buy_fees sell_fees : FeesPublic)
    (opp : Opportunity)
    (h : checkOpportunity minNotional minSpreadBps now symbol buy_exchange sell_exchange
          symbol_books buy_fees sell_fees = some opp) :
    opp.buy_price_after_fees < opp.sell_price_after_fees
    ∧ minSpreadBps ≤ opp.spread_bps
    ∧ opp.spread_bps = (opp.sell_price_after_fees - opp.buy_price_after_fees) /
        ((opp.buy_price_after_fees + opp.sell_price_after_fees) / 2) * 10000 := by
  simp only [checkOpportunity] at h
  split at h
  case h_2 => exact absurd h (by simp)
  case h_1 x y buy_book sell_book heq1 heq2 =>
    split at h
    · exact absurd h (by simp)
    · split at h
      · exact absurd h (by simp)
      · split at h
        · exact absurd h (by simp)
        · split at h
          · exact absurd h (by simp)
          · split at h
            · exact absurd h (by simp)
            · split at h
              · exact absurd h (by simp)
              · rename_i hbooks hvb hvs hle hmid hspread
                rw [Option.some.injEq] at h
                subst h
                refine ⟨lt_of_not_le hle, le_of_not_lt hspread, rfl⟩

theorem check_opportunity_invariant_witness :
    (checkOpportunity 100 50 0 "BTC/USDT" "binance" "okx" c1Books zeroFees zeroFees = some c1Opp)
    ∧ (c1Opp.buy_price_after_fees < c1Opp.sell_price_after_fees
       ∧ (50 : ℚ) ≤ c1Opp.spread_bps
       ∧ c1Opp.spread_bps = (c1Opp.sell_price_after_fees - c1Opp.buy_price_after_fees) /
           ((c1Opp.buy_price_after_fees + c1Opp.sell_price_after_fees) / 2) * 10000) := by
  have h : checkOpportunity 100 50 0 "BTC/USDT" "binance" "okx" c1Books zeroFees zeroFees
      = some c1Opp := by
    have hb : assocGet c1Books "binance" = some c1BuyBook := by
      norm_num [c1Books, assocGet]
    have hs : assocGet c1Books "okx" = some c1SellBook := by
      have : ¬ ("binance" : String) = "okx" := by decide
      norm_num [c1Books, assocGet, this]
    simp only [checkOpportunity, hb, hs]
    norm_num [calculate_buy_vwap, calculate_sell_vwap, calculate_vwap, cumsum, firstIdx,
      FeesPublic.get_fees, isWebsocketData, decide_eq_true_eq, assocGet, String.isEmpty,
      c1BuyBook, c1SellBook, zeroFees, c1Opp]
  exact ⟨h, check_opportunity_invariant 100 50 0 "BTC/USDT" "binance" "okx"
    c1Books zeroFees zeroFees c1Opp h⟩

/-- Books returned by _get_order_book always have non-empty bids and
asks and pass the recency check. -/
theorem getOrderBook_shape (books : List ((String × String) × OrderBook)) (now : ℚ)
    (exchange symbol : String) (book : OrderBook)
    (h : getOrderBook books now exchange symbol = some book) :
    book.bids ≠ [] ∧ book.asks ≠ [] := by
  unfold getOrderBook at h
  split at h
  · exact absurd h (by simp)
  · split at h
    · exact absurd h (by simp)
    · split at h
      · exact absurd h (by simp)
      · rename_i hne
        rw [Option.some.injEq] at h
        subst h
        push_neg at hne
        exact hne

/-- A leg filled on the inverse market to_asset/from_asset reports the
inverse symbol and the side opposite to the preferred one. -/
theorem executeLegReverse_shape (books : List ((String × String) × OrderBook)) (now : ℚ)
    (exchange from_asset to_asset : String) (amount : ℚ) (preferred_side : String)
    (fees : FeesPublic) (r : LegResult)
    (h : executeLegReverse books now exchange from_asset to_asset amount preferred_side fees
          = some r) :
    r.2.1 = to_asset ++ "/" ++ from_asset ∧ r.2.2.2 = flipSide preferred_side := by
  simp only [executeLegReverse] at h
  split at h
  · exact absurd h (by simp)
  · split at h
    · split at h
      · exact absurd h (by simp)
      · split at h
        · rename_i hbuy _ _
          rw [Option.some.injEq] at h
          subst h
          simp [flipSide, hbuy]
        · exact absurd h (by simp)
    · split at h
      · rename_i hbuy _
        rw [Option.some.injEq] at h
        subst h
        simp [flipSide, hbuy]
      · exact absurd h (by simp)

/-- Claim C3 counterexample: on a book store holding only the direct
market AAA/BBB, the hop AAA → BBB with preferred side buy is executed on
the direct market as a BUY against the asks, not as a sell against the
bids as the claim prescribes (the preferred side comes from the caller:
legs 1 and 2 use buy, only leg 3 uses sell). -/
theorem execute_leg_counterexample :
    getOrderBook c3Books 0 "ex" "AAA/BBB" = some c3Book
    ∧ executeLeg c3Books 0 "ex" "AAA" "BBB" 10 "buy" zeroFees
        = some (5, "AAA/BBB", 2, "buy")
    ∧ ("buy" : String) ≠ "sell" := by
  have hget : getOrderBook c3Books 0 "ex" "AAA/BBB" = some c3Book := by
    have : assocGet c3Books ("ex", "AAA/BBB") = some c3Book := by
      norm_num [c3Books, assocGet]
    norm_num [getOrderBook, this, c3Book]
  refine ⟨hget, ?_, by decide⟩
  have happ : ("AAA" : String) ++ "/" ++ "BBB" = "AAA/BBB" := rfl
  simp only [executeLeg, happ, hget]
  norm_num [calculate_buy_vwap, calculate_vwap, cumsum, firstIdx, decide_eq_true_eq,
    FeesPublic.get_fees, assocGet, String.isEmpty, c3Book, zeroFees]

/-- Claim C3 (amended): for a hop from → to with preferred side s (buy for
legs 1 and 2, sell for leg 3), the leg simulator first tries the direct
market from/to and, when its book is usable and the attempt on side s
fully fills, executes there with side s (buy → against the asks, sell →
against the bids); it resolves to the inverse market to/from — executing
with the opposite side — only when the direct book is absent or the direct
attempt does not fully fill. -/
theorem execute_leg_resolution (books : List ((String × String) × OrderBook)) (now : ℚ)
    (exchange from_asset to_asset : String) (amount : ℚ) (preferred_side : String)
    (fees : FeesPublic) (r : LegResult)
    (hside : preferred_side = "buy" ∨ preferred_side = "sell")
    (h : executeLeg books now exchange from_asset to_asset amount preferred_side fees
          = some r) :
    (∃ book, getOrderBook books now exchange (from_asset ++ "/" ++ to_asset) = some book
      ∧ directFill book amount preferred_side = true
      ∧ r.2.1 = from_asset ++ "/" ++ to_asset ∧ r.2.2.2 = preferred_side)
    ∨ ((∀ book, getOrderBook books now exchange (from_asset ++ "/" ++ to_asset) = some book
          → directFill book amount preferred_side = false)
      ∧ r.2.1 = to_asset ++ "/" ++ from_asset ∧ r.2.2.2 = flipSide preferred_side) := by
  simp only [executeLeg] at h
  split at h
  case h_2 hnone =>
    right
    refine ⟨fun book hbook => absurd (hnone ▸ hbook) (by simp), ?_⟩
    exact executeLegReverse_shape books now exchange from_asset to_asset amount
      preferred_side fees r h
  case h_1 book hbook =>
    split at h
    case isTrue hbuy =>
      split at h
      case isTrue hfill =>
        left
        rw [Option.some.injEq] at h
        subst h
        exact ⟨book, hbook, by simp [directFill, hbuy, hfill], rfl, hbuy.symm⟩
      case isFalse hfill =>
        right
        refine ⟨fun b hb => ?_, executeLegReverse_shape books now exchange from_asset
          to_asset amount preferred_side fees r h⟩
        rw [hbook, Option.some.injEq] at hb
        subst hb
        simp [directFill, hbuy]
        simpa using hfill
    case isFalse hbuy =>
      split at h
      case isTrue hbids => exact absurd h (by simp)
      case isFalse hbids =>
        split at h
        case isTrue hfill =>
          left
          rw [Option.some.injEq] at h
          subst h
          have hsell : preferred_side = "sell" := hside.resolve_left hbuy
          refine ⟨book, hbook, ?_, rfl, hsell.symm ▸ rfl⟩
          simp [directFill, hbuy, List.isEmpty_iff, hbids]
          simpa [List.getD] using hfill
        case isFalse hfill =>
          right
          refine ⟨fun b hb => ?_, executeLegReverse_shape books now exchange from_asset
            to_asset amount preferred_side fees r h⟩
          rw [hbook, Option.some.injEq] at hb
          subst hb
          simp [directFill, hbuy, List.isEmpty_iff, hbids]
          simpa using hfill

/-- Witness for the amended hop-resolution theorem at the concrete
counterexample input: the direct market is present, fills on side buy, and
the returned leg carries the direct symbol and the preferred side. -/
theorem execute_leg_resolution_witness :
    (("buy" : String) = "buy" ∨ ("buy" : String) = "sell")
    ∧ (executeLeg c3Books 0 "ex" "AAA" "BBB" 10 "buy" zeroFees
        = some (5, "AAA/BBB", 2, "buy"))
    ∧ ((∃ book, getOrderBook c3Books 0 "ex" ("AAA" ++ "/" ++ "BBB") = some book
        ∧ directFill book 10 "buy" = true
        ∧ ((5 : ℚ), "AAA/BBB", (2 : ℚ), "buy").2.1 = "AAA" ++ "/" ++ "BBB"
        ∧ ((5 : ℚ), "AAA/BBB", (2 : ℚ), "buy").2.2.2 = "buy")
      ∨ ((∀ book, getOrderBook c3Books 0 "ex" ("AAA" ++ "/" ++ "BBB") = some book
            → directFill book 10 "buy" = false)
        ∧ ((5 : ℚ), "AAA/BBB", (2 : ℚ), "buy").2.1 = "BBB" ++ "/" ++ "AAA"
        ∧ ((5 : ℚ), "AAA/BBB", (2 : ℚ), "buy").2.2.2 = flipSide "buy")) := by
  have hleg : executeLeg c3Books 0 "ex" "AAA" "BBB" 10 "buy" zeroFees
      = some (5, "AAA/BBB", 2, "buy") := by
    have hget : getOrderBook c3Books 0 "ex" "AAA/BBB" = some c3Book := by
      have : assocGet c3Books ("ex", "AAA/BBB") = some c3Book := by
        norm_num [c3Books, assocGet]
      norm_num [getOrderBook, this, c3Book]
    have happ : ("AAA" : String) ++ "/" ++ "BBB" = "AAA/BBB" := rfl
    simp only [executeLeg, happ, hget]
    norm_num [calculate_buy_vwap, calculate_vwap, cumsum, firstIdx, decide_eq_true_eq,
      FeesPublic.get_fees, assocGet, String.isEmpty, c3Book, zeroFees]
  exact ⟨Or.inl rfl, hleg,
    execute_leg_resolution c3Books 0 "ex" "AAA" "BBB" 10 "buy" zeroFees
      (5, "AAA/BBB", 2, "buy") (Or.inl rfl) hleg⟩

/-- Reading the map after an assocAppend: every element either was
already present under that key, or is the freshly appended value under the
appended key. -/
theorem assocGet_assocAppend_mem (l : List (String × List String)) (k v k' : String)
    (vs' : List String) (x : String)
    (h : assocGet (assocAppend l k v) k' = some vs') (hx : x ∈ vs') :
    (∃ vs₀, assocGet l k' = some vs₀ ∧ x ∈ vs₀) ∨ (k' = k ∧ x = v) := by
  induction l generalizing vs' with
  | nil =>
    simp only [assocAppend, assocGet] at h
    split at h
    · rename_i hk
      rw [Option.some.injEq] at h
      subst h
      right
      rcases List.mem_singleton.mp hx with hxv
      exact ⟨hk.symm, hxv⟩
    · exact absurd h (by simp)
  | cons hd tl ih =>
    obtain ⟨a, ws⟩ := hd
    by_cases hak : a = k
    · subst hak
      simp only [assocAppend, if_pos rfl] at h
      simp only [assocGet] at h ⊢
      split at h
      · rename_i hk'
        rw [Option.some.injEq] at h
        subst h
        rcases List.mem_append.mp hx with hw | hv
        · exact Or.inl ⟨ws, by rw [if_pos hk'], hw⟩
        · exact Or.inr ⟨hk'.symm, List.mem_singleton.mp hv⟩
      · rename_i hk'
        rw [if_neg hk']
        exact Or.inl ⟨vs', h, hx⟩
    · simp only [assocAppend, if_neg hak] at h
      simp only [assocGet] at h ⊢
      split at h
      · rename_i hk'
        rw [Option.some.injEq] at h
        subst h
        rw [if_pos hk']
        exact Or.inl ⟨ws, rfl, hx⟩
      · rename_i hk'
        rw [if_neg hk']
        exact ih vs' h hx

/-- Fold invariant for the two maps built by the first loop of
get_triangular_symbols: every (key, element) pair read out of the base map
comes from an active, non-excluded market with that base and quote, and
dually for the quote map. -/
theorem triMaps_fold_inv (X : List String) (Q R : String → String → Prop)
    (markets : List (String × MarketMeta))
    (hQ : ∀ sm ∈ markets, sm.2.active = true → sm.2.quote ∉ X → Q sm.2.base sm.2.quote)
    (hR : ∀ sm ∈ markets, sm.2.active = true → sm.2.quote ∉ X → R sm.2.quote sm.2.base) :
    ∀ acc : List (String × List String) × List (String × List String),
      (∀ k vs v, assocGet acc.1 k = some vs → v ∈ vs → Q k v) →
      (∀ k vs v, assocGet acc.2 k = some vs → v ∈ vs → R k v) →
      (∀ k vs v, assocGet (markets.foldl (triMapStep X) acc).1 k = some vs → v ∈ vs → Q k v)
      ∧ (∀ k vs v, assocGet (markets.foldl (triMapStep X) acc).2 k = some vs → v ∈ vs → R k v) := by
  induction markets with
  | nil =>
    intro acc hacc1 hacc2
    exact ⟨hacc1, hacc2⟩
  | cons sm ms ih =>
    intro acc hacc1 hacc2
    have hQ' : ∀ m ∈ ms, m.2.active = true → m.2.quote ∉ X → Q m.2.base m.2.quote :=
      fun m hm => hQ m (List.mem_cons_of_mem sm hm)
    have hR' : ∀ m ∈ ms, m.2.active = true → m.2.quote ∉ X → R m.2.quote m.2.base :=
      fun m hm => hR m (List.mem_cons_of_mem sm hm)
    rw [List.foldl_cons]
    refine ih hQ' hR' (triMapStep X acc sm) ?_ ?_
    · intro k vs v hget hv
      by_cases hact : sm.2.active = false
      · exact hacc1 k vs v (by simpa [triMapStep, hact] using hget) hv
      · by_cases hexc : sm.2.quote ∈ X
        · exact hacc1 k vs v (by simpa [triMapStep, hact, hexc] using hget) hv
        · simp only [triMapStep, if_neg hact, if_neg hexc] at hget
          rcases assocGet_assocAppend_mem acc.1 sm.2.base sm.2.quote k vs v hget hv with
            ⟨vs₀, hget₀, hv₀⟩ | ⟨hk, hv₀⟩
          · exact hacc1 k vs₀ v hget₀ hv₀
          · subst hk
            subst hv₀
            exact hQ sm (List.mem_cons_self sm ms) (Bool.not_eq_false _ ▸ hact) hexc
    · intro k vs v hget hv
      by_cases hact : sm.2.active = false
      · exact hacc2 k vs v (by simpa [triMapStep, hact] using hget) hv
      · by_cases hexc : sm.2.quote ∈ X
        · exact hacc2 k vs v (by simpa [triMapStep, hact, hexc] using hget) hv
        · simp only [triMapStep, if_neg hact, if_neg hexc] at hget
          rcases assocGet_assocAppend_mem acc.2 sm.2.quote sm.2.base k vs v hget hv with
            ⟨vs₀, hget₀, hv₀⟩ | ⟨hk, hv₀⟩
          · exact hacc2 k vs₀ v hget₀ hv₀
          · subst hk
            subst hv₀
            exact hR sm (List.mem_cons_self sm ms) (Bool.not_eq_false _ ▸ hact) hexc

/-- Every element read out of the symbols_by_base map comes from an
active, non-excluded market whose base is the key and whose quote is the
element. -/
theorem buildTriMaps_base_mem (markets : List (String × MarketMeta)) (X : List String)
    (k : String) (vs : List String) (v : String)
    (h : assocGet (buildTriMaps markets X).1 k = some vs) (hv : v ∈ vs) :
    ∃ m ∈ markets, m.2.active = true ∧ m.2.quote ∉ X ∧ m.2.base = k ∧ m.2.quote = v := by
  have := (triMaps_fold_inv X
    (fun b q => ∃ m ∈ markets, m.2.active = true ∧ m.2.quote ∉ X ∧ m.2.base = b ∧ m.2.quote = q)
    (fun q b => ∃ m ∈ markets, m.2.active = true ∧ m.2.quote ∉ X ∧ m.2.quote = q ∧ m.2.base = b)
    markets
    (fun sm hm hact hexc => ⟨sm, hm, hact, hexc, rfl, rfl⟩)
    (fun sm hm hact hexc => ⟨sm, hm, hact, hexc, rfl, rfl⟩)
    ([], [])
    (by intro k vs v hget; simp [assocGet] at hget)
    (by intro k vs v hget; simp [assocGet] at hget)).1
  exact this k vs v h hv

/-- Every element read out of the symbols_by_quote map comes from an
active, non-excluded market whose quote is the key and whose base is the
element. -/
theorem buildTriMaps_quote_mem (markets : List (String × MarketMeta)) (X : List String)
    (k : String) (vs : List String) (v : String)
    (h : assocGet (buildTriMaps markets X).2 k = some vs) (hv : v ∈ vs) :
    ∃ m ∈ markets, m.2.active = true ∧ m.2.quote ∉ X ∧ m.2.quote = k ∧ m.2.base = v := by
  have := (triMaps_fold_inv X
    (fun b q => ∃ m ∈ markets, m.2.active = true ∧ m.2.quote ∉ X ∧ m.2.base = b ∧ m.2.quote = q)
    (fun q b => ∃ m ∈ markets, m.2.active = true ∧ m.2.quote ∉ X ∧ m.2.quote = q ∧ m.2.base = b)
    markets
    (fun sm hm hact hexc => ⟨sm, hm, hact, hexc, rfl, rfl⟩)
    (fun sm hm hact hexc => ⟨sm, hm, hact, hexc, rfl, rfl⟩)
    ([], [])
    (by intro k vs v hget; simp [assocGet] at hget)
    (by intro k vs v hget; simp [assocGet] at hget)).2
  exact this k vs v h hv

/-- Claim C7 counterexample: with B = [USDT, BTC], empty exclusion set and
markets USDT/BTC, BTC/ETH, USDT/ETH, the enumeration returns the cycle
(USDT, BTC, ETH) whose middle asset BTC lies in B, contradicting the
requirement a2 not in B. -/
theorem tri_paths_counterexample :
    getTriangularSymbols c7Markets [] ["USDT", "BTC"] = [("USDT", "BTC", "ETH")]
    ∧ ("BTC" : String) ∈ ["USDT", "BTC"] := by
  constructor
  · decide
  · decide

/-- Claim C7 (amended): every cycle (b, a2, a3) returned by the
enumeration has b ∈ B, a2 different from b and outside X (but possibly
inside B), a3 different from b and a2 and outside X (but possibly inside
B), and the venue offers active markets b/a2, a2/a3 and b/a3 enabling the
three hops b → a2 → a3 → b. -/
theorem tri_paths_shape (markets : List (String × MarketMeta)) (X B : List String)
    (p : String × String × String) (hp : p ∈ getTriangularSymbols markets X B) :
    p.1 ∈ B ∧ p.2.1 ≠ p.1 ∧ p.2.1 ∉ X
    ∧ p.2.2 ≠ p.1 ∧ p.2.2 ≠ p.2.1 ∧ p.2.2 ∉ X
    ∧ (∃ m ∈ markets, m.2.active = true ∧ m.2.base = p.1 ∧ m.2.quote = p.2.1)
    ∧ (∃ m ∈ markets, m.2.active = true ∧ m.2.base = p.2.1 ∧ m.2.quote = p.2.2)
    ∧ (∃ m ∈ markets, m.2.active = true ∧ m.2.base = p.1 ∧ m.2.quote = p.2.2) := by
  simp only [getTriangularSymbols, List.mem_flatMap] at hp
  obtain ⟨base, hbase, hp⟩ := hp
  cases h1 : assocGet (buildTriMaps markets X).1 base with
  | none => rw [h1] at hp; simp at hp
  | some reach =>
    rw [h1] at hp
    simp only [List.mem_flatMap] at hp
    obtain ⟨a2, ha2, hp⟩ := hp
    split at hp
    · simp at hp
    · rename_i ha2base
      split at hp
      · simp at hp
      · rename_i ha2X
        cases h2 : assocGet (buildTriMaps markets X).1 a2 with
        | none => rw [h2] at hp; simp at hp
        | some reach2 =>
          rw [h2] at hp
          simp only [List.mem_flatMap] at hp
          obtain ⟨a3, ha3, hp⟩ := hp
          split at hp
          · simp at hp
          · rename_i ha3ne
            push_neg at ha3ne
            split at hp
            · simp at hp
            · rename_i ha3X
              cases h3 : assocGet (buildTriMaps markets X).2 a3 with
              | none => rw [h3] at hp; simp at hp
              | some bases =>
                rw [h3] at hp
                simp only [List.mem_ite_nil_right, List.mem_singleton] at hp
                obtain ⟨hbmem, rfl⟩ := hp
                obtain ⟨m1, hm1, hm1a, _, hm1b, hm1q⟩ :=
                  buildTriMaps_base_mem markets X base reach a2 h1 ha2
                obtain ⟨m2, hm2, hm2a, _, hm2b, hm2q⟩ :=
                  buildTriMaps_base_mem markets X a2 reach2 a3 h2 ha3
                obtain ⟨m3, hm3, hm3a, _, hm3q, hm3b⟩ :=
                  buildTriMaps_quote_mem markets X a3 bases base h3 hbmem
                exact ⟨hbase, ha2base, ha2X, ha3ne.1, ha3ne.2, ha3X,
                  ⟨m1, hm1, hm1a, hm1b, hm1q⟩, ⟨m2, hm2, hm2a, hm2b, hm2q⟩,
                  ⟨m3, hm3, hm3a, hm3b, hm3q⟩⟩

/-- Witness for the amended path-enumeration theorem at the concrete
counterexample input. -/
theorem tri_paths_shape_witness :
    (("USDT", "BTC", "ETH") ∈ getTriangularSymbols c7Markets [] ["USDT", "BTC"])
    ∧ (("USDT" : String) ∈ ["USDT", "BTC"]
       ∧ ("BTC" : String) ≠ "USDT" ∧ ("BTC" : String) ∉ ([] : List String)
       ∧ ("ETH" : String) ≠ "USDT" ∧ ("ETH" : String) ≠ "BTC"
       ∧ ("ETH" : String) ∉ ([] : List String)
       ∧ (∃ m ∈ c7Markets, m.2.active = true ∧ m.2.base = "USDT" ∧ m.2.quote = "BTC")
       ∧ (∃ m ∈ c7Markets, m.2.active = true ∧ m.2.base = "BTC" ∧ m.2.quote = "ETH")
       ∧ (∃ m ∈ c7Markets, m.2.active = true ∧ m.2.base = "USDT" ∧ m.2.quote = "ETH")) := by
  have hmem : ("USDT", "BTC", "ETH") ∈ getTriangularSymbols c7Markets [] ["USDT", "BTC"] := by
    decide
  exact ⟨hmem, tri_paths_shape c7Markets [] ["USDT", "BTC"] ("USDT", "BTC", "ETH") hmem⟩

/-- splitOnChar never returns an empty list of pieces. -/
theorem splitOnChar_ne_nil (c : Char) (s : List Char) : splitOnChar c s ≠ [] := by
  cases s with
  | nil => simp [splitOnChar]
  | cons x xs =>
    simp only [splitOnChar]
    split
    · simp
    · split <;> simp

/-- Splitting a list that starts with a separator-free block prepends the
block to the first piece of the remainder. -/
theorem splitOnChar_append_no_sep (c : Char) (l1 rest : List Char)
    (h : ∀ x ∈ l1, x ≠ c) (y : List Char) (ys : List (List Char))
    (hrest : splitOnChar c rest = y :: ys) :
    splitOnChar c (l1 ++ rest) = (l1 ++ y) :: ys := by
  induction l1 with
  | nil => simpa using hrest
  | cons a as ih =>
    have ha : ¬ a = c := h a (List.mem_cons_self a as)
    have h' : ∀ x ∈ as, x ≠ c := fun x hx => h x (List.mem_cons_of_mem a hx)
    have ihr := ih h'
    simp only [List.cons_append, splitOnChar, if_neg ha]
    rw [show as.append rest = as ++ rest from rfl, ihr]

/-- Substring containment survives prepending. -/
theorem hasSub_append_left (pat l s : List Char) (h : hasSub pat s = true) :
    hasSub pat (l ++ s) = true := by
  induction l with
  | nil => simpa using h
  | cons a as ih =>
    simp only [List.cons_append, hasSub, Bool.or_eq_true]
    exact Or.inr ih

/-- Appending a fresh binding at the end does not change reads of other
keys. -/
theorem assocGet_append_ne {κ α : Type} [DecidableEq κ] (l : List (κ × α)) (k k' : κ)
    (v : α) (h : ¬ k = k') : assocGet (l ++ [(k, v)]) k' = assocGet l k' := by
  induction l with
  | nil => simp [assocGet, h]
  | cons hd tl ih =>
    obtain ⟨a, b⟩ := hd
    by_cases hak : a = k' <;> simp [assocGet, hak, ih]

/-- Appending a binding for an absent key makes it readable. -/
theorem assocGet_append_self {κ α : Type} [DecidableEq κ] (l : List (κ × α)) (k : κ)
    (v : α) (h : assocGet l k = none) : assocGet (l ++ [(k, v)]) k = some v := by
  induction l with
  | nil => simp [assocGet]
  | cons hd tl ih =>
    obtain ⟨a, b⟩ := hd
    simp only [assocGet] at h
    split at h
    · exact absurd h (by simp)
    · rename_i hak
      simpa [assocGet, hak] using ih h

/-- ensureKey leaves reads of other keys unchanged. -/
theorem ensureKey_get_ne (ov : List (String × List (String × ℚ))) (k v : String)
    (h : ¬ k = v) : assocGet (ensureKey ov k) v = assocGet ov v := by
  unfold ensureKey
  split
  · rfl
  · exact assocGet_append_ne ov k v [] h

/-- ensureKey on an absent key binds it to the empty inner dict. -/
theorem ensureKey_get_self (ov : List (String × List (String × ℚ))) (k : String)
    (h : assocGet ov k = none) : assocGet (ensureKey ov k) k = some [] := by
  unfold ensureKey
  rw [h]
  exact assocGet_append_self ov k [] h

/-- An environment entry that does not target exchange v leaves the
override entry of v unchanged. -/
theorem feeOverrideStep_preserves (ov : List (String × List (String × ℚ)))
    (kv : String × Option ℚ) (v : String) (h : feeKeyExchange kv.1 ≠ some v) :
    assocGet (feeOverrideStep ov kv) v = assocGet ov v := by
  simp only [feeKeyExchange] at h
  simp only [feeOverrideStep]
  split
  · rename_i hsub
    rw [if_pos hsub] at h
    split
    · rename_i hlen
      rw [if_pos hlen] at h
      have hex : ¬ toLowerStr (((splitOnChar '_' kv.1.data).map
          (fun l => String.mk l)).getD 0 "") = v := by
        simpa using h
      cases hval : kv.2 with
      | none => exact ensureKey_get_ne ov _ v hex
      | some w =>
        rw [assocGet_set_ne _ _ _ _ (fun e => hex e.symm)]
        exact ensureKey_get_ne ov _ v hex
    · rfl
  · rfl

/-- Folding environment entries none of which target v keeps v absent
from the overrides. -/
theorem feeOverrides_fold_none (es : List (String × Option ℚ)) (v : String)
    (hes : ∀ kv ∈ es, feeKeyExchange kv.1 ≠ some v) :
    ∀ acc, assocGet acc v = none → assocGet (es.foldl feeOverrideStep acc) v = none := by
  induction es with
  | nil => intro acc h; simpa using h
  | cons kv rest ih =>
    intro acc h
    rw [List.foldl_cons]
    exact ih (fun x hx => hes x (List.mem_cons_of_mem kv hx)) _
      ((feeOverrideStep_preserves acc kv v (hes kv (List.mem_cons_self kv rest))).trans h)

/-- Processing V_TAKER_FEE (V without underscores, value parsed) on an
environment with no other entry targeting V leaves an override table whose
entry for lower(V) is exactly the inner dict with taker bound. -/
theorem getFeeOverrides_taker (V : String) (x : ℚ) (es : List (String × Option ℚ))
    (hV : ∀ ch ∈ V.data, ch ≠ '_')
    (hes : ∀ kv ∈ es, feeKeyExchange kv.1 ≠ some (toLowerStr V)) :
    assocGet (getFeeOverrides (es ++ [(V ++ "_TAKER_FEE", some x)])) (toLowerStr V)
      = some [("taker", x)] := by
  unfold getFeeOverrides
  rw [List.foldl_append]
  have hacc : assocGet (es.foldl feeOverrideStep []) (toLowerStr V) = none :=
    feeOverrides_fold_none es (toLowerStr V) hes [] (by simp [assocGet])
  have hsub : hasSub "_TAKER_FEE".data (V ++ "_TAKER_FEE").data = true := by
    rw [String.data_append]
    exact hasSub_append_left _ _ _ (by decide)
  have hsplit : splitOnChar '_' ((V ++ "_TAKER_FEE").data)
      = [V.data, ['T', 'A', 'K', 'E', 'R'], ['F', 'E', 'E']] := by
    rw [String.data_append]
    have hs := splitOnChar_append_no_sep '_' V.data ("_TAKER_FEE".data) hV []
      [['T', 'A', 'K', 'E', 'R'], ['F', 'E', 'E']] (by decide)
    simpa using hs
  simp only [List.foldl_cons, List.foldl_nil, feeOverrideStep, hsub, Bool.true_or,
    if_pos, hsplit, List.map_cons, List.map_nil, List.getD, List.getElem?_cons_zero,
    List.getElem?_cons_succ, Option.getD_some, List.length_cons, List.length_nil,
    List.get?_cons_zero, List.get?_cons_succ]
  have hmkV : String.mk V.data = V := rfl
  have hmkT : toLowerStr (String.mk ['T', 'A', 'K', 'E', 'R']) = "taker" := by decide
  rw [hmkV, hmkT]
  have hlen : (3 : ℕ) ≤ 0 + 1 + 1 + 1 := by norm_num
  rw [if_pos hlen]
  rw [ensureKey_get_self _ _ hacc]
  simp only [Option.getD_some]
  exact assocGet_set_self _ _ _

/-- The maker analogue of getFeeOverrides_taker. -/
theorem getFeeOverrides_maker (V : String) (x : ℚ) (es : List (String × Option ℚ))
    (hV : ∀ ch ∈ V.data, ch ≠ '_')
    (hes : ∀ kv ∈ es, feeKeyExchange kv.1 ≠ some (toLowerStr V)) :
    assocGet (getFeeOverrides (es ++ [(V ++ "_MAKER_FEE", some x)])) (toLowerStr V)
      = some [("maker", x)] := by
  unfold getFeeOverrides
  rw [List.foldl_append]
  have hacc : assocGet (es.foldl feeOverrideStep []) (toLowerStr V) = none :=
    feeOverrides_fold_none es (toLowerStr V) hes [] (by simp [assocGet])
  have hsub : hasSub "_MAKER_FEE".data (V ++ "_MAKER_FEE").data = true := by
    rw [String.data_append]
    exact hasSub_append_left _ _ _ (by decide)
  have hsplit : splitOnChar '_' ((V ++ "_MAKER_FEE").data)
      = [V.data, ['M', 'A', 'K', 'E', 'R'], ['F', 'E', 'E']] := by
    rw [String.data_append]
    have hs := splitOnChar_append_no_sep '_' V.data ("_MAKER_FEE".data) hV []
      [['M', 'A', 'K', 'E', 'R'], ['F', 'E', 'E']] (by decide)
    simpa using hs
  simp only [List.foldl_cons, List.foldl_nil, feeOverrideStep, hsub, Bool.or_true,
    if_pos, hsplit, List.map_cons, List.map_nil, List.getD, List.getElem?_cons_zero,
    List.getElem?_cons_succ, Option.getD_some, List.length_cons, List.length_nil,
    List.get?_cons_zero, List.get?_cons_succ]
  have hmkV : String.mk V.data = V := rfl
  have hmkM : toLowerStr (String.mk ['M', 'A', 'K', 'E', 'R']) = "maker" := by decide
  rw [hmkV, hmkM]
  have hlen : (3 : ℕ) ≤ 0 + 1 + 1 + 1 := by norm_num
  rw [if_pos hlen]
  rw [ensureKey_get_self _ _ hacc]
  simp only [Option.getD_some]
  exact assocGet_set_self _ _ _

/-- Claim C8: an environment entry V_TAKER_FEE (resp. V_MAKER_FEE) whose
value parses as a rational in [0, 1) makes the fee lookup for venue
lower(V) on a fresh fee manager return that value as the taker (resp.
maker) fee with source env, overriding whatever the public fetch or the
built-in defaults produced. -/
theorem env_fee_override (V : String) (x y : ℚ) (esT esM : List (String × Option ℚ))
    (pubT pubM : FeesPublic) (symbol : Option String)
    (hV : ∀ ch ∈ V.data, ch ≠ '_')
    (hx : 0 ≤ x ∧ x < 1) (hy : 0 ≤ y ∧ y < 1)
    (hesT : ∀ kv ∈ esT, feeKeyExchange kv.1 ≠ some (toLowerStr V))
    (hesM : ∀ kv ∈ esM, feeKeyExchange kv.1 ≠ some (toLowerStr V)) :
    ((getFees [] (getFeeOverrides (esT ++ [(V ++ "_TAKER_FEE", some x)])) pubT
        (toLowerStr V) symbol).1.taker = x
      ∧ (getFees [] (getFeeOverrides (esT ++ [(V ++ "_TAKER_FEE", some x)])) pubT
        (toLowerStr V) symbol).1.source = "env")
    ∧ ((getFees [] (getFeeOverrides (esM ++ [(V ++ "_MAKER_FEE", some y)])) pubM
        (toLowerStr V) symbol).1.maker = y
      ∧ (getFees [] (getFeeOverrides (esM ++ [(V ++ "_MAKER_FEE", some y)])) pubM
        (toLowerStr V) symbol).1.source = "env") := by
  have hT := getFeeOverrides_taker V x esT hV hesT
  have hM := getFeeOverrides_maker V y esM hV hesM
  have htm : ¬ ("taker" : String) = "maker" := by decide
  have hmt : ¬ ("maker" : String) = "taker" := by decide
  constructor
  · constructor <;>
      simp [getFees, assocGet, applyOverrides, hT, htm]
  · constructor <;>
      simp [getFees, assocGet, applyOverrides, hM, hmt]

/-- Claim C8 witness: BINANCE_TAKER_FEE=0.0005 on an otherwise empty
environment yields taker = 0.0005 with source env for venue binance, and
the maker analogue holds; all hypotheses are discharged at the concrete
input. -/
theorem env_fee_override_witness :
    (∀ ch ∈ "BINANCE".data, ch ≠ '_')
    ∧ ((0 : ℚ) ≤ 1/2000 ∧ (1/2000 : ℚ) < 1)
    ∧ toLowerStr "BINANCE" = "binance"
    ∧ ((getFees [] (getFeeOverrides [("BINANCE" ++ "_TAKER_FEE", some (1/2000))]) zeroFees
          (toLowerStr "BINANCE") none).1.taker = 1/2000
        ∧ (getFees [] (getFeeOverrides [("BINANCE" ++ "_TAKER_FEE", some (1/2000))]) zeroFees
          (toLowerStr "BINANCE") none).1.source = "env")
    ∧ ((getFees [] (getFeeOverrides [("BINANCE" ++ "_MAKER_FEE", some (1/2000))]) zeroFees
          (toLowerStr "BINANCE") none).1.maker = 1/2000
        ∧ (getFees [] (getFeeOverrides [("BINANCE" ++ "_MAKER_FEE", some (1/2000))]) zeroFees
          (toLowerStr "BINANCE") none).1.source = "env") := by
  have hV : ∀ ch ∈ "BINANCE".data, ch ≠ '_' := by decide
  have hx : (0 : ℚ) ≤ 1/2000 ∧ (1/2000 : ℚ) < 1 := by norm_num
  have h := env_fee_override "BINANCE" (1/2000) (1/2000) [] [] zeroFees zeroFees none
    hV hx hx (by simp) (by simp)
  refine ⟨hV, hx, by decide, ?_, ?_⟩
  · simpa using h.1
  · simpa using h.2

/-- Filtering keeps a binding that satisfies the predicate readable with
the same value. -/
theorem assocGet_filter {κ α : Type} [DecidableEq κ] (l : List (κ × α)) (p : κ × α → Bool)
    (k : κ) (v : α) (h : assocGet l k = some v) (hp : p (k, v) = true) :
    assocGet (l.filter p) k = some v := by
  induction l with
  | nil => simp [assocGet] at h
  | cons hd tl ih =>
    obtain ⟨a, b⟩ := hd
    simp only [assocGet] at h
    by_cases hak : a = k
    · subst hak
      rw [if_pos rfl] at h
      injection h with hb
      subst hb
      simp [List.filter_cons, hp, assocGet]
    · rw [if_neg hak] at h
      by_cases hpab : p (a, b) = true
      · simp [List.filter_cons, hpab, assocGet, hak, ih h]
      · simp [List.filter_cons, hpab, ih h]

/-- _is_duplicate always installs the cleaned table. -/
theorem isDuplicate_snd (sent : List (String × ℚ)) (now : ℚ) (key : String) :
    (isDuplicate sent now key).2 = cleanOldAlerts sent now := by
  simp only [isDuplicate]
  split <;> rfl

/-- The verdict of _is_duplicate when the cleaned table holds the key. -/
theorem isDuplicate_fst_of_mem (sent : List (String × ℚ)) (now : ℚ) (key : String)
    (ts : ℚ) (h : assocGet (cleanOldAlerts sent now) key = some ts) :
    (isDuplicate sent now key).1 = decide (now - ts < alertTTL) := by
  simp only [isDuplicate, h]

/-- sendAlert unfolded to an if-cascade over the duplicate verdict. -/
theorem sendAlert_eq (st : AlertState) (k : String) (now : ℚ) :
    sendAlert st k now =
      if st.enabled = false then (false, st)
      else if (isDuplicate st.sent_alerts now k).1 then
        (false, { st with sent_alerts := (isDuplicate st.sent_alerts now k).2 })
      else
        (true,
          { st with
            sent_alerts := assocSet (isDuplicate st.sent_alerts now k).2 k now }) := rfl

/-- A queued submission records its key at the submission time. -/
theorem sendAlert_queued_marks (st : AlertState) (k : String) (t : ℚ)
    (h : (sendAlert st k t).1 = true) :
    assocGet ((sendAlert st k t).2).sent_alerts k = some t := by
  rw [sendAlert_eq] at h ⊢
  by_cases he : st.enabled = false
  · rw [if_pos he] at h
    exact absurd h (by simp)
  · rw [if_neg he] at h ⊢
    by_cases hd : (isDuplicate st.sent_alerts t k).1 = true
    · rw [if_pos hd] at h
      exact absurd h (by simp)
    · rw [if_neg hd] at h ⊢
      exact assocGet_set_self _ _ _

/-- A key recorded less than the TTL before the submission time survives a
submission of any key unchanged. -/
theorem sendAlert_preserves (st : AlertState) (k k₂ : String) (ts t : ℚ)
    (hk : assocGet st.sent_alerts k = some ts) (hlt : t - ts < 30) :
    assocGet ((sendAlert st k₂ t).2).sent_alerts k = some ts := by
  have hclean : assocGet (cleanOldAlerts st.sent_alerts t) k = some ts := by
    apply assocGet_filter _ _ _ _ hk
    simp only [alertTTL, Bool.not_eq_eq_eq_not, Bool.not_true, decide_eq_false_iff_not,
      not_lt, Bool.not_eq_false, decide_eq_true_eq, gt_iff_lt]
    linarith
  rw [sendAlert_eq]
  by_cases he : st.enabled = false
  · rw [if_pos he]
    exact hk
  · rw [if_neg he]
    by_cases hd : (isDuplicate st.sent_alerts t k₂).1 = true
    · rw [if_pos hd]
      rw [isDuplicate_snd]
      exact hclean
    · rw [if_neg hd]
      by_cases hkk : k₂ = k
      · exfalso
        apply hd
        subst hkk
        rw [isDuplicate_fst_of_mem st.sent_alerts t k₂ ts hclean]
        simp only [alertTTL, decide_eq_true_eq]
        exact hlt
      · have : assocGet (assocSet (isDuplicate st.sent_alerts t k₂).2 k₂ t) k
            = assocGet (isDuplicate st.sent_alerts t k₂).2 k :=
          assocGet_set_ne _ _ _ _ (fun e => hkk e.symm)
        rw [this, isDuplicate_snd]
        exact hclean

/-- A submission whose key is recorded less than the TTL earlier is
dropped: it returns false. -/
theorem sendAlert_drops (st : AlertState) (k : String) (ts t : ℚ)
    (hk : assocGet st.sent_alerts k = some ts) (hlt : t - ts < 30) :
    (sendAlert st k t).1 = false := by
  rw [sendAlert_eq]
  by_cases he : st.enabled = false
  · rw [if_pos he]
  · rw [if_neg he]
    have hclean : assocGet (cleanOldAlerts st.sent_alerts t) k = some ts := by
      apply assocGet_filter _ _ _ _ hk
      simp only [alertTTL, Bool.not_eq_eq_eq_not, Bool.not_true, decide_eq_false_iff_not,
        not_lt, Bool.not_eq_false, decide_eq_true_eq, gt_iff_lt]
      linarith
    have hd : (isDuplicate st.sent_alerts t k).1 = true := by
      rw [isDuplicate_fst_of_mem st.sent_alerts t k ts hclean]
      simp only [alertTTL, decide_eq_true_eq]
      exact hlt
    rw [if_pos hd]

/-- runAlerts unfolded on a cons cell. -/
theorem runAlerts_cons (s : AlertState) (e : String × ℚ) (rest : List (String × ℚ)) :
    runAlerts s (e :: rest)
      = ((sendAlert s e.1 e.2).1 :: (runAlerts (sendAlert s e.1 e.2).2 rest).1,
         (runAlerts (sendAlert s e.1 e.2).2 rest).2) := by
  obtain ⟨k, t⟩ := e
  rfl

/-- runAlerts over an append: run the first block, then the second from
the intermediate state. -/
theorem runAlerts_append (s : AlertState) (l1 l2 : List (String × ℚ)) :
    runAlerts s (l1 ++ l2)
      = ((runAlerts s l1).1 ++ (runAlerts (runAlerts s l1).2 l2).1,
         (runAlerts (runAlerts s l1).2 l2).2) := by
  induction l1 generalizing s with
  | nil => simp [runAlerts]
  | cons e rest ih =>
    rw [List.cons_append, runAlerts_cons, runAlerts_cons, ih]
    rfl

/-- One verdict per submission. -/
theorem runAlerts_length (s : AlertState) (evs : List (String × ℚ)) :
    (runAlerts s evs).1.length = evs.length := by
  induction evs generalizing s with
  | nil => rfl
  | cons e rest ih => rw [runAlerts_cons]; simp [ih]

/-- getD through drop. -/
theorem getD_drop (l : List (String × ℚ)) (n m : ℕ) (d : String × ℚ) :
    (l.drop n).getD m d = l.getD (n + m) d := by
  rw [List.getD_eq_getElem?_getD, List.getElem?_drop, ← List.getD_eq_getElem?_getD]

/-- Nondecreasing submission times, read through getD. -/
theorem pairwise_le_getD (evs : List (String × ℚ))
    (h : evs.Pairwise (fun a b => a.2 ≤ b.2)) (m n : ℕ) (hmn : m ≤ n)
    (hn : n < evs.length) :
    (evs.getD m ("", 0)).2 ≤ (evs.getD n ("", 0)).2 := by
  rcases eq_or_lt_of_le hmn with rfl | hlt
  · exact le_refl _
  · have hm : m < evs.length := lt_trans hlt hn
    rw [List.getD_eq_getElem evs ("", 0) hm, List.getD_eq_getElem evs ("", 0) hn]
    exact List.pairwise_iff_get.mp h ⟨m, hm⟩ ⟨n, hn⟩ (Fin.mk_lt_mk.mpr hlt)

/-- While a key sits in the table with a timestamp less than the TTL
before every submission time up to position j, a submission of that key at
position j is not queued. -/
theorem runAlerts_drop (evs : List (String × ℚ)) :
    ∀ (s : AlertState) (k : String) (t0 : ℚ) (j : ℕ),
      j < evs.length →
      assocGet s.sent_alerts k = some t0 →
      (∀ m, m ≤ j → (evs.getD m ("", 0)).2 - t0 < 30) →
      (evs.getD j ("", 0)).1 = k →
      (runAlerts s evs).1.getD j false = false := by
  induction evs with
  | nil =>
    intro s k t0 j hj
    simp at hj
  | cons e rest ih =>
    intro s k t0 j hj hs hms hkey
    cases j with
    | zero =>
      have h0 := hms 0 (le_refl 0)
      rw [List.getD_cons_zero] at h0 hkey
      subst hkey
      have hdrop : (sendAlert s e.1 e.2).1 = false :=
        sendAlert_drops s e.1 t0 e.2 hs h0
      rw [runAlerts_cons, List.getD_cons_zero]
      exact hdrop
    | succ j₂ =>
      have h0 := hms 0 (Nat.zero_le _)
      rw [List.getD_cons_zero] at h0
      have hpres := sendAlert_preserves s k e.1 t0 e.2 hs h0
      rw [runAlerts_cons, List.getD_cons_succ]
      refine ih (sendAlert s e.1 e.2).2 k t0 j₂ ?_ hpres ?_ ?_
      · simpa using Nat.lt_of_succ_lt_succ (by simpa using hj)
      · intro m hm
        have := hms (m + 1) (Nat.succ_le_succ hm)
        rwa [List.getD_cons_succ] at this
      · rwa [List.getD_cons_succ] at hkey

/-- Any two queued submissions of the same key in a time-sorted trace,
starting from any state, are at least the TTL apart. -/
theorem runAlerts_dedup_aux (evs : List (String × ℚ)) :
    ∀ (s : AlertState), evs.Pairwise (fun a b => a.2 ≤ b.2) →
      ∀ i j : ℕ, i < j → j < evs.length →
      (runAlerts s evs).1.getD i false = true →
      (runAlerts s evs).1.getD j false = true →
      (evs.getD i ("", 0)).1 = (evs.getD j ("", 0)).1 →
      30 ≤ (evs.getD j ("", 0)).2 - (evs.getD i ("", 0)).2 := by
  induction evs with
  | nil =>
    intro s _ i j _ hj
    simp at hj
  | cons e rest ih =>
    intro s hsort i j hij hj hqi hqj hkey
    rw [runAlerts_cons] at hqi hqj
    cases i with
    | zero =>
      obtain ⟨j₂, rfl⟩ : ∃ j₂, j = j₂ + 1 := ⟨j - 1, by omega⟩
      rw [List.getD_cons_zero] at hqi
      rw [List.getD_cons_succ] at hqj
      rw [List.getD_cons_zero, List.getD_cons_succ] at hkey ⊢
      have hj₂ : j₂ < rest.length := by
        rw [List.length_cons] at hj
        omega
      by_contra hcon
      push_neg at hcon
      have hmark := sendAlert_queued_marks s e.1 e.2 hqi
      have hdropped := runAlerts_drop rest (sendAlert s e.1 e.2).2 e.1 e.2 j₂ hj₂ hmark
        (fun m hm => by
          have hle := pairwise_le_getD rest (List.Pairwise.of_cons hsort) m j₂ hm hj₂
          linarith)
        hkey.symm
      rw [hdropped] at hqj
      exact Bool.false_ne_true hqj
    | succ i₂ =>
      obtain ⟨j₂, rfl⟩ : ∃ j₂, j = j₂ + 1 := ⟨j - 1, by omega⟩
      rw [List.getD_cons_succ] at hqi hqj
      rw [List.getD_cons_succ, List.getD_cons_succ] at hkey ⊢
      have hj₂ : j₂ < rest.length := by
        rw [List.length_cons] at hj
        omega
      exact ih (sendAlert s e.1 e.2).2 (List.Pairwise.of_cons hsort) i₂ j₂
        (by omega) hj₂ hqi hqj hkey

/-- Claim C5: in any single-producer sequence of alert submissions with
nondecreasing times, no two submissions that both queue a message share a
dedup key less than dedup_ttl = 30 seconds apart; and a submission whose
key is recorded in the table less than 30 seconds earlier is dropped,
returning false. -/
theorem alert_dedup_within_ttl :
    (∀ (evs : List (String × ℚ)) (enabled : Bool),
      evs.Pairwise (fun a b => a.2 ≤ b.2) →
      ∀ i j : ℕ, i < j → j < evs.length →
      (runAlerts { enabled := enabled, sent_alerts := [] } evs).1.getD i false = true →
      (runAlerts { enabled := enabled, sent_alerts := [] } evs).1.getD j false = true →
      (evs.getD i ("", 0)).1 = (evs.getD j ("", 0)).1 →
      30 ≤ (evs.getD j ("", 0)).2 - (evs.getD i ("", 0)).2)
    ∧ (∀ (st : AlertState) (k : String) (ts t : ℚ),
        assocGet st.sent_alerts k = some ts → 0 ≤ t - ts → t - ts < 30 →
        (sendAlert st k t).1 = false) := by
  constructor
  · intro evs enabled hsort i j hij hj hqi hqj hkey
    exact runAlerts_dedup_aux evs { enabled := enabled, sent_alerts := [] }
      hsort i j hij hj hqi hqj hkey
  · intro st k ts t hk _ hlt
    exact sendAlert_drops st k ts t hk hlt

/-- Claim C5 witness: the trace [(K, 0), (K, 31)] queues both submissions
(31 seconds apart, past the TTL), and a submission of a key recorded 10
seconds earlier returns false; the hypotheses of the dedup theorem are
discharged at this concrete input. -/
theorem alert_dedup_within_ttl_witness :
    ([("K", (0 : ℚ)), ("K", 31)].Pairwise (fun a b => a.2 ≤ b.2))
    ∧ (0 : ℕ) < 1 ∧ 1 < [("K", (0 : ℚ)), ("K", 31)].length
    ∧ (runAlerts { enabled := true, sent_alerts := [] }
        [("K", (0 : ℚ)), ("K", 31)]).1.getD 0 false = true
    ∧ (runAlerts { enabled := true, sent_alerts := [] }
        [("K", (0 : ℚ)), ("K", 31)]).1.getD 1 false = true
    ∧ (30 : ℚ) ≤ ([("K", (0 : ℚ)), ("K", 31)].getD 1 ("", 0)).2
        - ([("K", (0 : ℚ)), ("K", 31)].getD 0 ("", 0)).2
    ∧ assocGet [("K", (0 : ℚ))] "K" = some 0
    ∧ (sendAlert { enabled := true, sent_alerts := [("K", (0 : ℚ))] } "K" 10).1 = false := by
  have hpair : ([("K", (0 : ℚ)), ("K", 31)].Pairwise (fun a b => a.2 ≤ b.2)) := by
    norm_num [List.pairwise_cons]
  have hq0 : (runAlerts { enabled := true, sent_alerts := [] }
      [("K", (0 : ℚ)), ("K", 31)]).1.getD 0 false = true := by
    norm_num [runAlerts, sendAlert, isDuplicate, cleanOldAlerts, assocGet, assocSet,
      alertTTL, List.filter]
  have hq1 : (runAlerts { enabled := true, sent_alerts := [] }
      [("K", (0 : ℚ)), ("K", 31)]).1.getD 1 false = true := by
    norm_num [runAlerts, sendAlert, isDuplicate, cleanOldAlerts, assocGet, assocSet,
      alertTTL, List.filter]
  have hget : assocGet [("K", (0 : ℚ))] "K" = some 0 := by simp [assocGet]
  refine ⟨hpair, by norm_num, by norm_num, hq0, hq1, ?_, hget, ?_⟩
  · exact alert_dedup_within_ttl.1 [("K", (0 : ℚ)), ("K", 31)] true hpair 0 1
      (by norm_num) (by norm_num) hq0 hq1 rfl
  · exact alert_dedup_within_ttl.2 { enabled := true, sent_alerts := [("K", (0 : ℚ))] }
      "K" 0 10 hget (by norm_num) (by norm_num)

/-- firstIdx only returns indices inside the list. -/
theorem firstIdx_lt_length (p : ℚ → Bool) (l : List ℚ) (k : ℕ)
    (h : firstIdx p l = some k) : k < l.length := by
  induction l generalizing k with
  | nil => simp [firstIdx] at h
  | cons x xs ih =>
    simp only [firstIdx] at h
    split at h
    · rw [Option.some.injEq] at h
      simp only [List.length_cons]
      omega
    · cases hx : firstIdx p xs with
      | none => rw [hx] at h; simp at h
      | some k₂ =>
        rw [hx] at h
        simp only [Option.map_some', Option.some.injEq] at h
        subst h
        have := ih k₂ hx
        simp only [List.length_cons]
        omega

/-- The element at a firstIdx index satisfies the predicate. -/
theorem firstIdx_getD (p : ℚ → Bool) (l : List ℚ) (k : ℕ)
    (h : firstIdx p l = some k) : p (l.getD k 0) = true := by
  induction l generalizing k with
  | nil => simp [firstIdx] at h
  | cons x xs ih =>
    simp only [firstIdx] at h
    split at h
    · rename_i hp
      rw [Option.some.injEq] at h
      subst h
      simpa using hp
    · cases hx : firstIdx p xs with
      | none => rw [hx] at h; simp at h
      | some k₂ =>
        rw [hx] at h
        simp only [Option.map_some', Option.some.injEq] at h
        subst h
        rw [List.getD_cons_succ]
        exact ih k₂ hx

/-- Elements strictly before a firstIdx index fail the predicate. -/
theorem firstIdx_min (p : ℚ → Bool) (l : List ℚ) (k : ℕ)
    (h : firstIdx p l = some k) : ∀ j, j < k → p (l.getD j 0) = false := by
  induction l generalizing k with
  | nil => simp [firstIdx] at h
  | cons x xs ih =>
    simp only [firstIdx] at h
    split at h
    · rw [Option.some.injEq] at h
      omega
    · rename_i hp
      cases hx : firstIdx p xs with
      | none => rw [hx] at h; simp at h
      | some k₂ =>
        rw [hx] at h
        simp only [Option.map_some', Option.some.injEq] at h
        subst h
        intro j hj
        cases j with
        | zero =>
          rw [List.getD_cons_zero]
          exact Bool.not_eq_true _ ▸ hp
        | succ j₂ =>
          rw [List.getD_cons_succ]
          exact ih k₂ hx j₂ (by omega)

/-- A list holding a satisfying element gives firstIdx a hit. -/
theorem firstIdx_ne_none (p : ℚ → Bool) (l : List ℚ) (x : ℚ)
    (hx : x ∈ l) (hp : p x = true) : firstIdx p l ≠ none := by
  induction l with
  | nil => simp at hx
  | cons y ys ih =>
    simp only [firstIdx]
    split
    · simp
    · rename_i hy
      rcases List.mem_cons.mp hx with rfl | hmem
      · exact absurd hp (by simpa using hy)
      · cases hz : firstIdx p ys with
        | none => exact absurd hz (ih hmem)
        | some k => simp

/-- cumsum preserves length. -/
theorem cumsum_length (l : List ℚ) : (cumsum l).length = l.length := by
  induction l with
  | nil => rfl
  | cons x xs ih => simp [cumsum, ih]

/-- Reading a mapped list. -/
theorem getD_map_add (x : ℚ) (l : List ℚ) (i : ℕ) (h : i < l.length) :
    (l.map (fun y => x + y)).getD i 0 = x + l.getD i 0 := by
  rw [List.getD_eq_getElem _ _ (by simpa using h), List.getD_eq_getElem _ _ h,
    List.getElem_map]

/-- The i-th cumulative sum is the sum of the first i+1 entries. -/
theorem cumsum_getD (l : List ℚ) (i : ℕ) (h : i < l.length) :
    (cumsum l).getD i 0 = (l.take (i + 1)).sum := by
  induction l generalizing i with
  | nil => simp at h
  | cons x xs ih =>
    cases i with
    | zero => simp [cumsum]
    | succ i₂ =>
      have hi₂ : i₂ < xs.length := by
        simp only [List.length_cons] at h
        omega
      simp only [cumsum, List.getD_cons_succ, List.take_succ_cons, List.sum_cons]
      rw [getD_map_add x (cumsum xs) i₂ (by rw [cumsum_length]; exact hi₂), ih i₂ hi₂]

/-- The elementwise product of the price and amount columns is the
notional column. -/
theorem zipWith_mul_self (levels : List DepthLevel) :
    List.zipWith (· * ·) (levels.map (·.price)) (levels.map (·.amount))
      = levels.map (fun l => l.price * l.amount) := by
  induction levels with
  | nil => rfl
  | cons l ls ih => simp [ih]

/-- Same for truncated columns. -/
theorem zipWith_mul_take (levels : List DepthLevel) (k : ℕ) :
    List.zipWith (· * ·) ((levels.map (·.price)).take k) ((levels.map (·.amount)).take k)
      = (levels.take k).map (fun l => l.price * l.amount) := by
  rw [← List.map_take, ← List.map_take]
  exact zipWith_mul_self (levels.take k)

/-- Weighted sum against an upper price bound. -/
theorem map_mul_sum_le (L : List DepthLevel) (hi : ℚ)
    (hbound : ∀ l ∈ L, l.price ≤ hi) (hamt : ∀ l ∈ L, 0 ≤ l.amount) :
    (L.map (fun l => l.price * l.amount)).sum ≤ hi * (L.map (·.amount)).sum := by
  induction L with
  | nil => simp
  | cons l ls ih =>
    simp only [List.map_cons, List.sum_cons, mul_add]
    have h1 : l.price * l.amount ≤ hi * l.amount :=
      mul_le_mul_of_nonneg_right (hbound l (List.mem_cons_self l ls))
        (hamt l (List.mem_cons_self l ls))
    have h2 := ih (fun a ha => hbound a (List.mem_cons_of_mem l ha))
      (fun a ha => hamt a (List.mem_cons_of_mem l ha))
    linarith

/-- Weighted sum against a lower price bound. -/
theorem le_map_mul_sum (L : List DepthLevel) (lo : ℚ)
    (hbound : ∀ l ∈ L, lo ≤ l.price) (hamt : ∀ l ∈ L, 0 ≤ l.amount) :
    lo * (L.map (·.amount)).sum ≤ (L.map (fun l => l.price * l.amount)).sum := by
  induction L with
  | nil => simp
  | cons l ls ih =>
    simp only [List.map_cons, List.sum_cons, mul_add]
    have h1 : lo * l.amount ≤ l.price * l.amount :=
      mul_le_mul_of_nonneg_right (hbound l (List.mem_cons_self l ls))
        (hamt l (List.mem_cons_self l ls))
    have h2 := ih (fun a ha => hbound a (List.mem_cons_of_mem l ha))
      (fun a ha => hamt a (List.mem_cons_of_mem l ha))
    linarith

/-- Reading a sorted rational list at two ordered positions. -/
theorem sorted_le_getD (ps : List ℚ) (hs : ps.Sorted (· ≤ ·)) (i j : ℕ)
    (hij : i ≤ j) (hj : j < ps.length) : ps.getD i 0 ≤ ps.getD j 0 := by
  rcases eq_or_lt_of_le hij with rfl | hlt
  · exact le_refl _
  · have hi : i < ps.length := lt_trans hlt hj
    rw [List.getD_eq_getElem ps 0 hi, List.getD_eq_getElem ps 0 hj]
    exact List.pairwise_iff_get.mp hs ⟨i, hi⟩ ⟨j, hj⟩ (Fin.mk_lt_mk.mpr hlt)

/-- Members of the first k entries of a sorted list are bounded by the
k-th entry. -/
theorem mem_take_le_getD (ps : List ℚ) (hs : ps.Sorted (· ≤ ·)) (k : ℕ)
    (hk : k < ps.length) (x : ℚ) (hx : x ∈ ps.take k) : x ≤ ps.getD k 0 := by
  obtain ⟨i, hi, hxi⟩ := List.mem_iff_getElem.mp hx
  have hik : i < k := by
    simp only [List.length_take] at hi
    omega
  have hilen : i < ps.length := lt_trans hik hk
  have hx2 : ps.getD i 0 = x := by
    rw [List.getD_eq_getElem ps 0 hilen, ← hxi]
    exact (List.getElem_take ps).symm
  rw [← hx2]
  exact sorted_le_getD ps hs i k (le_of_lt hik) hk

/-- The head of a sorted list bounds every member from below. -/
theorem sorted_head_le_mem (ps : List ℚ) (hs : ps.Sorted (· ≤ ·)) (x : ℚ)
    (hx : x ∈ ps) : ps.getD 0 0 ≤ x := by
  cases ps with
  | nil => simp at hx
  | cons p rest =>
    rw [List.getD_cons_zero]
    rcases List.mem_cons.mp hx with rfl | hmem
    · exact le_refl x
    · exact List.rel_of_sorted_cons hs x hmem

/-- Price column read through getD. -/
theorem price_getD (levels : List DepthLevel) (i : ℕ) (h : i < levels.length) :
    (levels.map (·.price)).getD i 0 = (levels.getD i { price := 0, amount := 0 }).price := by
  rw [List.getD_eq_getElem _ _ (by simpa using h), List.getD_eq_getElem _ _ h,
    List.getElem_map]

set_option maxHeartbeats 1600000 in
/-- Claim C2: on a non-empty ascending book of strictly positive prices
and amounts whose total notional covers N > 0, calculate_vwap reports a
full fill and a VWAP between the first price and the price of the last
level used. -/
theorem vwap_full_fill_bounds (levels : List DepthLevel) (N : ℚ) (side : String)
    (hne : levels ≠ [])
    (hpos : ∀ l ∈ levels, 0 < l.price ∧ 0 < l.amount)
    (hsorted : (levels.map (·.price)).Sorted (· ≤ ·))
    (hN : 0 < N)
    (hliq : N ≤ (levels.map (fun l => l.price * l.amount)).sum) :
    (calculate_vwap levels N side).fully_filled = true
    ∧ (levels.getD 0 { price := 0, amount := 0 }).price
        ≤ (calculate_vwap levels N side).vwap_price
    ∧ (calculate_vwap levels N side).vwap_price
        ≤ (levels.getD ((calculate_vwap levels N side).levels_used - 1)
            { price := 0, amount := 0 }).price := by
  have hcond : ¬(levels = [] ∨ N ≤ 0) := by
    push_neg
    exact ⟨hne, hN⟩
  have hlen0 : 0 < levels.length := List.length_pos.mpr hne
  have hcnlen : (cumsum (levels.map (fun l => l.price * l.amount))).length
      = levels.length := by
    rw [cumsum_length, List.length_map]
  have hlast : (cumsum (levels.map (fun l => l.price * l.amount))).getD
      (levels.length - 1) 0 = (levels.map (fun l => l.price * l.amount)).sum := by
    rw [cumsum_getD _ _ (by rw [List.length_map]; omega)]
    congr 1
    have hix : levels.length - 1 + 1 = (levels.map (fun l => l.price * l.amount)).length := by
      rw [List.length_map]
      omega
    rw [hix, List.take_length]
  have hmem : (cumsum (levels.map (fun l => l.price * l.amount))).getD
      (levels.length - 1) 0 ∈ cumsum (levels.map (fun l => l.price * l.amount)) := by
    rw [List.getD_eq_getElem _ _ (by omega)]
    exact List.getElem_mem _
  have hhit : firstIdx (fun c => decide (N ≤ c))
      (cumsum (levels.map (fun l => l.price * l.amount))) ≠ none := by
    apply firstIdx_ne_none _ _ _ hmem
    rw [hlast]
    simpa using hliq
  obtain ⟨k, hk⟩ : ∃ k, firstIdx (fun c => decide (N ≤ c))
      (cumsum (levels.map (fun l => l.price * l.amount))) = some k := by
    cases h : firstIdx (fun c => decide (N ≤ c))
        (cumsum (levels.map (fun l => l.price * l.amount))) with
    | none => exact absurd h hhit
    | some k => exact ⟨k, rfl⟩
  have hklen : k < levels.length := by
    have := firstIdx_lt_length _ _ _ hk
    omega
  have hklenp : k < (levels.map (·.price)).length := by
    rw [List.length_map]
    exact hklen
  simp only [calculate_vwap, if_neg hcond, zipWith_mul_self]
  rw [hk]
  split
  · rename_i heq
    exact absurd heq (by simp)
  · rename_i fill_index heq
    rw [Option.some.injEq] at heq
    subst heq
    by_cases hk0 : k = 0
    · subst hk0
      rw [if_pos rfl]
      refine ⟨rfl, ?_, ?_⟩ <;>
      · cases levels with
        | nil => exact absurd rfl hne
        | cons l0 rest => simp
    · rw [if_neg hk0]
      have hk1 : k - 1 < (levels.map (fun l => l.price * l.amount)).length := by
        rw [List.length_map]
        omega
      have hkm : k - 1 + 1 = k := by omega
      have hcnk : (cumsum (levels.map (fun l => l.price * l.amount))).getD (k - 1) 0
          = ((levels.take k).map (fun l => l.price * l.amount)).sum := by
        rw [cumsum_getD _ _ hk1, hkm, List.map_take]
      have hcak : (cumsum (levels.map (·.amount))).getD (k - 1) 0
          = ((levels.take k).map (·.amount)).sum := by
        rw [cumsum_getD _ _ (by rw [List.length_map]; omega), hkm, List.map_take]
      have hless : (fun c => decide (N ≤ c))
          ((cumsum (levels.map (fun l => l.price * l.amount))).getD (k - 1) 0) = false :=
        firstIdx_min _ _ _ hk (k - 1) (by omega)
      rw [hcnk] at hless
      have hltN : ((levels.take k).map (fun l => l.price * l.amount)).sum < N := by
        simpa using hless
      have hmemk : levels.getD k { price := 0, amount := 0 } ∈ levels := by
        rw [List.getD_eq_getElem _ _ hklen]
        exact List.getElem_mem _
      have hpk : 0 < (levels.map (·.price)).getD k 0 := by
        rw [price_getD levels k hklen]
        exact (hpos _ hmemk).1
      have hamts : ∀ l ∈ levels.take k, 0 ≤ l.amount :=
        fun l hl => le_of_lt (hpos l (List.mem_of_mem_take hl)).2
      have hApos : 0 ≤ ((levels.take k).map (·.amount)).sum := by
        apply List.sum_nonneg
        intro a ha
        obtain ⟨l, hl, rfl⟩ := List.mem_map.mp ha
        exact hamts l hl
      have hrem : 0 < N - ((levels.take k).map (fun l => l.price * l.amount)).sum := by
        linarith
      have hpart : 0 < (N - ((levels.take k).map (fun l => l.price * l.amount)).sum)
          / (levels.map (·.price)).getD k 0 := div_pos hrem hpk
      have hTA : 0 < ((levels.take k).map (·.amount)).sum
          + (N - ((levels.take k).map (fun l => l.price * l.amount)).sum)
            / (levels.map (·.price)).getD k 0 := by linarith
      rw [hcnk, hcak, if_pos hTA, zipWith_mul_take]
      have hboundhi : ∀ l ∈ levels.take k, l.price ≤ (levels.map (·.price)).getD k 0 := by
        intro l hl
        apply mem_take_le_getD _ hsorted k hklenp
        rw [← List.map_take]
        exact List.mem_map_of_mem _ hl
      have hboundlo : ∀ l ∈ levels.take k,
          (levels.map (·.price)).getD 0 0 ≤ l.price := by
        intro l hl
        apply sorted_head_le_mem _ hsorted
        exact List.mem_map_of_mem _ (List.mem_of_mem_take hl)
      have hp0pk : (levels.map (·.price)).getD 0 0 ≤ (levels.map (·.price)).getD k 0 :=
        sorted_le_getD _ hsorted 0 k (Nat.zero_le k) hklenp
      have hWhi := map_mul_sum_le (levels.take k) ((levels.map (·.price)).getD k 0)
        hboundhi hamts
      have hWlo := le_map_mul_sum (levels.take k) ((levels.map (·.price)).getD 0 0)
        hboundlo hamts
      refine ⟨rfl, ?_, ?_⟩
      · rw [← price_getD levels 0 hlen0, le_div_iff hTA]
        have h1 : (levels.map (·.price)).getD 0 0
              * ((N - ((levels.take k).map (fun l => l.price * l.amount)).sum)
                / (levels.map (·.price)).getD k 0)
            ≤ (levels.map (·.price)).getD k 0
              * ((N - ((levels.take k).map (fun l => l.price * l.amount)).sum)
                / (levels.map (·.price)).getD k 0) :=
          mul_le_mul_of_nonneg_right hp0pk (le_of_lt hpart)
        calc (levels.map (·.price)).getD 0 0
              * (((levels.take k).map (·.amount)).sum
                + (N - ((levels.take k).map (fun l => l.price * l.amount)).sum)
                  / (levels.map (·.price)).getD k 0)
            = (levels.map (·.price)).getD 0 0 * ((levels.take k).map (·.amount)).sum
              + (levels.map (·.price)).getD 0 0
                * ((N - ((levels.take k).map (fun l => l.price * l.amount)).sum)
                  / (levels.map (·.price)).getD k 0) := by ring
          _ ≤ ((levels.take k).map (fun l => l.price * l.amount)).sum
              + (levels.map (·.price)).getD k 0
                * ((N - ((levels.take k).map (fun l => l.price * l.amount)).sum)
                  / (levels.map (·.price)).getD k 0) := add_le_add hWlo h1
      · have hsub : k + 1 - 1 = k := by omega
        rw [hsub, ← price_getD levels k hklen, div_le_iff hTA]
        calc ((levels.take k).map (fun l => l.price * l.amount)).sum
              + (levels.map (·.price)).getD k 0
                * ((N - ((levels.take k).map (fun l => l.price * l.amount)).sum)
                  / (levels.map (·.price)).getD k 0)
            ≤ (levels.map (·.price)).getD k 0 * ((levels.take k).map (·.amount)).sum
              + (levels.map (·.price)).getD k 0
                * ((N - ((levels.take k).map (fun l => l.price * l.amount)).sum)
                  / (levels.map (·.price)).getD k 0) := add_le_add hWhi (le_refl _)
          _ = (levels.map (·.price)).getD k 0
              * (((levels.take k).map (·.amount)).sum
                + (N - ((levels.take k).map (fun l => l.price * l.amount)).sum)
                  / (levels.map (·.price)).getD k 0) := by ring

/-- Claim C2 witness: the two-level book [(100, 1), (101, 2)] with target
notional 150 (which needs both levels) fully fills with a VWAP between
100 and the price of the last level used; every hypothesis is discharged
at the concrete input. -/
theorem vwap_full_fill_bounds_witness :
    c2Levels ≠ []
    ∧ (∀ l ∈ c2Levels, 0 < l.price ∧ 0 < l.amount)
    ∧ (c2Levels.map (·.price)).Sorted (· ≤ ·)
    ∧ (0 : ℚ) < 150
    ∧ (150 : ℚ) ≤ (c2Levels.map (fun l => l.price * l.amount)).sum
    ∧ ((calculate_vwap c2Levels 150 "buy").fully_filled = true
      ∧ (c2Levels.getD 0 { price := 0, amount := 0 }).price
          ≤ (calculate_vwap c2Levels 150 "buy").vwap_price
      ∧ (calculate_vwap c2Levels 150 "buy").vwap_price
          ≤ (c2Levels.getD ((calculate_vwap c2Levels 150 "buy").levels_used - 1)
              { price := 0, amount := 0 }).price) := by
  have hne : c2Levels ≠ [] := by simp [c2Levels]
  have hpos : ∀ l ∈ c2Levels, 0 < l.price ∧ 0 < l.amount := by
    intro l hl
    simp only [c2Levels, List.mem_cons, List.mem_singleton] at hl
    rcases hl with rfl | rfl | h
    · constructor <;> norm_num
    · constructor <;> norm_num
    · simp at h
  have hsorted : (c2Levels.map (·.price)).Sorted (· ≤ ·) := by
    simp only [c2Levels, List.map_cons, List.map_nil]
    refine List.Sorted.cons ?_ ?_
    · norm_num
    · exact List.sorted_singleton _
  have hN : (0 : ℚ) < 150 := by norm_num
  have hliq : (150 : ℚ) ≤ (c2Levels.map (fun l => l.price * l.amount)).sum := by
    simp [c2Levels]
    norm_num
  exact ⟨hne, hpos, hsorted, hN, hliq,
    vwap_full_fill_bounds c2Levels 150 "buy" hne hpos hsorted hN hliq⟩
